import Mathlib

/-!
Verification development for the `thunderbird-cli` (`tb`) mail search core.

The Go sources are shallowly embedded: pure helper functions become Lean
functions over `String`/`List Char`; the sequential mbox scan loop, the
per-folder cache decision of `App.search`, the de-duplication loop, the
result sort, and the Postgres-backed store (`Upsert`, `PruneMissing`)
become explicit state-passing functions.  Go `time.Time` values are
modelled as `Nat` epoch seconds, with `0` playing the role of the zero
value (`IsZero`).  Go byte strings are modelled as Lean strings; for the
ASCII inputs exercised here Go byte-wise operations and the char-wise
models below agree (UTF-8 preserves code-point order, so Go string
comparison agrees with lexicographic comparison of code points).
-/

/-- Lexicographic strict order on char lists; models Go string `<`
(byte-wise lexicographic comparison, which on valid UTF-8 agrees with
code-point lexicographic order). -/
def charListLt : List Char → List Char → Bool
  | [], [] => false
  | [], _ :: _ => true
  | _ :: _, [] => false
  | x :: xs, y :: ys => if x < y then true else if y < x then false else charListLt xs ys

/-- Go `a > b` on strings. -/
def strGt (a b : String) : Bool :=
  charListLt b.data a.data

/-- ASCII fragment of Go `strings.ToLower` on a single char (the inputs in
this development are ASCII, where Unicode and ASCII lowering agree). -/
def toLowerChar (c : Char) : Char :=
  if 'A' ≤ c ∧ c ≤ 'Z' then Char.ofNat (c.toNat + 32) else c

/-- Model of Go `strings.ToLower`. -/
def toLowerGo (s : String) : String :=
  ⟨s.data.map toLowerChar⟩

/-- Model of Go `strings.HasPrefix` on char lists. -/
def listStartsWith : List Char → List Char → Bool
  | _, [] => true
  | [], _ :: _ => false
  | h :: hs, n :: ns => h = n && listStartsWith hs ns

/-- Model of Go `strings.Contains` on char lists (an empty needle is
contained in every string, as in Go). -/
def listContainsSub : List Char → List Char → Bool
  | [], needle => needle.isEmpty
  | h :: hs, needle => listStartsWith (h :: hs) needle || listContainsSub hs needle

/-- Go `strings.Contains s sub`. -/
def strContains (s sub : String) : Bool :=
  listContainsSub s.data sub.data

/-- Go `strings.HasPrefix s pre`. -/
def strHasPre (s pre : String) : Bool :=
  listStartsWith s.data pre.data

/-- ASCII whitespace test, the fragment of Go `unicode.IsSpace` relevant
to the inputs in this development. -/
def isSpaceChar (c : Char) : Bool :=
  c = ' ' ∨ c = '\t' ∨ c = '\n' ∨ c = '\r' ∨ c = '\x0b' ∨ c = '\x0c'

/-- Model of Go `strings.TrimSpace`. -/
def trimSpaceGo (s : String) : String :=
  ⟨((s.data.dropWhile isSpaceChar).reverse.dropWhile isSpaceChar).reverse⟩

/-- Splits a char list into maximal runs separated by whitespace, the
model of Go `strings.Fields`. -/
def fieldsGoAux : List Char → List Char → List (List Char)
  | [], cur => if cur.isEmpty then [] else [cur.reverse]
  | c :: rest, cur =>
      if isSpaceChar c then
        if cur.isEmpty then fieldsGoAux rest [] else cur.reverse :: fieldsGoAux rest []
      else fieldsGoAux rest (c :: cur)

/-- Go `strings.Fields`. -/
def fieldsGo (s : String) : List String :=
  (fieldsGoAux s.data []).map (fun l => ⟨l⟩)

/-- Go `strings.Join xs " "`. -/
def joinSpace : List String → String
  | [] => ""
  | [x] => x
  | x :: rest => x ++ " " ++ joinSpace rest

/-- Model of the Go helper `truncate` (byte length and byte slicing model
char length and char slicing; they agree on ASCII). -/
def truncate (s : String) (n : Nat) : String :=
  if s.data.length ≤ n then s else ⟨s.data.take (n - 3)⟩ ++ "..."

/-- Splits on newline and strips one trailing carriage return per line,
the line discipline of Go `bufio.ScanLines`. -/
def splitLinesAux : List Char → List Char → List (List Char)
  | [], cur => [cur.reverse]
  | '\n' :: rest, cur => cur.reverse :: splitLinesAux rest []
  | c :: rest, cur => splitLinesAux rest (c :: cur)

/-- Strips one trailing `\r`, as `bufio.ScanLines` does. -/
def dropCR (l : List Char) : List Char :=
  match l.reverse with
  | '\r' :: rest => rest.reverse
  | _ => l

/-- Model of the Go helper `firstNonEmptyLine`: the first line whose
trimmed content is non-empty, truncated to 160. -/
def firstNonEmptyLine (body : String) : String :=
  let lines := (splitLinesAux body.data []).map (fun l => trimSpaceGo ⟨dropCR l⟩)
  match lines.find? (fun l => l ≠ "") with
  | some l => truncate l 160
  | none => ""

/-- One processed message, the Go `MailSummary` struct.  `when` is epoch
seconds with `0` modelling the Go zero `time.Time` (`IsZero`); `sender`
is the Go field `From`; `profile` is the field used by the Postgres
store. -/
structure MailSummary where
  folder : String
  subject : String
  sender : String
  date : String
  messageID : String
  snippet : String
  whenTs : Nat
  account : String
  searchBlob : String
  folderTag : String
  profile : String
deriving DecidableEq, Repr

/-- Go `hasMissingDates`: true if any summary has a zero timestamp. -/
def hasMissingDates (msgs : List MailSummary) : Bool :=
  msgs.any (fun m => m.whenTs = 0)

/-- Go `makeMatcher`: substring mode lowercases the query and tests
containment; fuzzy mode requires every whitespace token of the lowered
query to appear in the blob. -/
def makeMatcher (q : String) (fuzzy : Bool) : String → Bool :=
  if !fuzzy then
    let ql := toLowerGo q
    fun s => strContains s ql
  else
    let tokens := fieldsGo (toLowerGo q)
    fun s => tokens.all (fun t => strContains s t)

/-- Folder-type tagging switch from `searchMailbox`: trash/deleted and
spam/junk substrings of the lowered folder name; otherwise the current
tag is kept (the Go switch has no default case). -/
def folderTagFor (lowerName current : String) : String :=
  if strContains lowerName "trash" || strContains lowerName "deleted" then "trash"
  else if strContains lowerName "spam" || strContains lowerName "junk" then "spam"
  else current

/-- One record handed to the scan loop by the mbox reader.  `readError`
models a non-EOF `reader.NextMessage` error (skipped without counting as
seen); `parseFail` models a `parseMessage` error (counted as seen, then
skipped); `msg` carries the summary and search text that `parseMessage`
produced. -/
inductive MboxItem where
  | readError
  | parseFail
  | msg (summary : MailSummary) (searchText : String)
deriving Repr

/-- The body of the Go `searchMailbox` loop, with the `seen` counter and
the accumulated `hits` made explicit.  Parameters mirror the Go
signature: match predicate, `limit`, `since`/`till` bounds (0 = zero
time), `maxMessages` cap, account label, `tailCount`. -/
def scanLoop (boxName : String) (matchF : String → Bool) (limit since till maxMessages : Nat)
    (accountLabel : String) (tailCount : Nat) :
    List MboxItem → Nat → List MailSummary → List MailSummary
  | [], _, hits => hits
  | .readError :: rest, seen, hits =>
      scanLoop boxName matchF limit since till maxMessages accountLabel tailCount rest seen hits
  | .parseFail :: rest, seen, hits =>
      if maxMessages > 0 ∧ seen + 1 > maxMessages ∧ tailCount = 0 then hits
      else scanLoop boxName matchF limit since till maxMessages accountLabel tailCount rest (seen + 1) hits
  | .msg s searchText :: rest, seen, hits =>
      if maxMessages > 0 ∧ seen + 1 > maxMessages ∧ tailCount = 0 then hits
      else
        if since ≠ 0 ∧ s.whenTs ≠ 0 ∧ s.whenTs < since then
          scanLoop boxName matchF limit since till maxMessages accountLabel tailCount rest (seen + 1) hits
        else if till ≠ 0 ∧ s.whenTs ≠ 0 ∧ s.whenTs > till then
          scanLoop boxName matchF limit since till maxMessages accountLabel tailCount rest (seen + 1) hits
        else
          let s1 := if accountLabel ≠ "" then { s with account := accountLabel } else s
          let s2 := { s1 with folderTag := folderTagFor (toLowerGo boxName) s1.folderTag }
          let s3 := { s2 with searchBlob := searchText }
          if matchF searchText then
            let hits1 := hits ++ [s3]
            let hits2 := if tailCount > 0 ∧ hits1.length > tailCount then hits1.drop 1 else hits1
            let hits3 := if tailCount = 0 ∧ limit > 0 ∧ hits2.length > limit then hits2.drop 1 else hits2
            scanLoop boxName matchF limit since till maxMessages accountLabel tailCount rest (seen + 1) hits3
          else
            scanLoop boxName matchF limit since till maxMessages accountLabel tailCount rest (seen + 1) hits

/-- Go `searchMailbox` (modulo opening the file, which is the caller's
environment): runs the loop from an empty accumulator. -/
def searchMailbox (boxName : String) (matchF : String → Bool) (limit since till maxMessages : Nat)
    (accountLabel : String) (tailCount : Nat) (items : List MboxItem) : List MailSummary :=
  scanLoop boxName matchF limit since till maxMessages accountLabel tailCount items 0 []

/-- Shortest prefix of the item stream containing `c` countable (non
`readError`) items; the scan with cap `c` and no tail window processes
exactly this prefix. -/
def seenTake : Nat → List MboxItem → List MboxItem
  | _, [] => []
  | c, .readError :: rest => .readError :: seenTake c rest
  | 0, _ :: _ => []
  | c + 1, x :: rest => x :: seenTake c rest

/-- Last `n` elements of a list, in order. -/
def lastWindow (n : Nat) (l : List α) : List α :=
  l.drop (l.length - n)

/-- Go `accountForPath`: first directory of the map that is a path
prefix wins (the Go map iteration order is unspecified; the model fixes
the list order). -/
def accountForPath (path : String) : List (String × String) → String
  | [] => ""
  | (dir, acct) :: rest =>
      if strHasPre path dir then acct else accountForPath path rest

/-- One cached folder scan, the Go `FolderIndex` entry of the local
index file: file fingerprint (`modTime` as Unix seconds, `size` in
bytes), cached summaries, save timestamp, completeness flag. -/
structure FolderIndex where
  modTime : Int
  size : Int
  messages : List MailSummary
  savedAt : Nat
  complete : Bool
deriving DecidableEq, Repr

/-- The `filterMsgs` closure of `App.search`: stamps a missing account
label, rebuilds a missing search blob, applies the since/till bounds
(only to summaries with a parsed timestamp), the account filter, and the
match predicate. -/
def filterMsgs (targetAccount accountEmail boxPath : String)
    (dirToAccount : List (String × String)) (since till : Nat) (matchF : String → Bool) :
    List MailSummary → List MailSummary
  | [] => []
  | im :: rest =>
      let im1 :=
        if im.account = "" then
          if targetAccount ≠ "" then { im with account := targetAccount }
          else
            let acct := accountForPath boxPath dirToAccount
            if acct ≠ "" then { im with account := acct } else im
        else im
      let im2 :=
        if im1.searchBlob = "" then
          { im1 with searchBlob := toLowerGo (joinSpace [im1.subject, im1.sender, im1.snippet]) }
        else im1
      if since ≠ 0 ∧ im2.whenTs ≠ 0 ∧ im2.whenTs < since then
        filterMsgs targetAccount accountEmail boxPath dirToAccount since till matchF rest
      else if till ≠ 0 ∧ im2.whenTs ≠ 0 ∧ im2.whenTs > till then
        filterMsgs targetAccount accountEmail boxPath dirToAccount since till matchF rest
      else if accountEmail ≠ "" ∧ toLowerGo im2.account ≠ accountEmail then
        filterMsgs targetAccount accountEmail boxPath dirToAccount since till matchF rest
      else if matchF im2.searchBlob then
        im2 :: filterMsgs targetAccount accountEmail boxPath dirToAccount since till matchF rest
      else
        filterMsgs targetAccount accountEmail boxPath dirToAccount since till matchF rest

/-- De-duplication key of the aggregation loop in `App.search`: the
four-field composite, or the (date, snippet) fallback when all four
fields are empty (exactly when the composite equals the bare
separators). -/
def dedupKey (m : MailSummary) : String :=
  let key := m.messageID ++ "|" ++ m.subject ++ "|" ++ m.date ++ "|" ++ m.folder
  if key = "|||" then m.date ++ "|" ++ m.snippet else key

/-- The merge loop of `App.search` over one folder result: appends each
summary whose key has not been seen, recording the key. -/
def dedupInto (seenKeys : List String) (hits : List MailSummary) :
    List MailSummary → List String × List MailSummary
  | [] => (seenKeys, hits)
  | m :: rest =>
      let key := dedupKey m
      if seenKeys.contains key then dedupInto seenKeys hits rest
      else dedupInto (seenKeys ++ [key]) (hits ++ [m]) rest

/-- Cross-folder de-duplication starting from nothing seen. -/
def dedupHits (l : List MailSummary) : List MailSummary :=
  (dedupInto [] [] l).2

/-- Per-folder environment that `App.search` observes from the outside
world: display name, path, `os.Stat` fingerprint (`none` = stat error),
and the mbox content as an item stream (`none` = the file cannot be
opened, so the scan errors out). -/
structure FolderCtx where
  name : String
  path : String
  stat : Option (Int × Int)
  content : Option (List MboxItem)
deriving Repr

/-- Accumulated state of the folder loop of `App.search`: the in-memory
cache map, the `changed` flag, merged hits, seen dedup keys, and a trace
of the folder paths for which a mailbox scan was invoked. -/
structure SearchAcc where
  folders : List (String × FolderIndex)
  changed : Bool
  hits : List MailSummary
  seenKeys : List String
  scanned : List String
deriving Repr

/-- Replaces the entry for `path` in the cache map, or appends it, the
model of Go `cache.Folders[b.Path] = idxEntry`. -/
def putFolder (folders : List (String × FolderIndex)) (path : String) (e : FolderIndex) :
    List (String × FolderIndex) :=
  if folders.any (fun kv => kv.1 = path) then
    folders.map (fun kv => if kv.1 = path then (path, e) else kv)
  else folders ++ [(path, e)]

/-- Go `buildFolderIndex`: full unfiltered scan of the mailbox plus the
current fingerprint; fails when the file cannot be opened or statted.
`savedAtNow` stands for `time.Now()`. -/
def buildFolderIndex (ctx : FolderCtx) (accountLabel : String) (maxMessages tailCount : Nat)
    (savedAtNow : Nat) : Option FolderIndex :=
  match ctx.content with
  | none => none
  | some items =>
      match ctx.stat with
      | none => none
      | some (mt, sz) =>
          some { modTime := mt, size := sz,
                 messages := searchMailbox ctx.name (fun _ => true) 0 0 0 maxMessages accountLabel tailCount items,
                 savedAt := savedAtNow, complete := true }

/-- The body of the folder loop of `App.search` for one folder: cache
staleness test, reuse-or-refresh decision, and the de-duplicating merge
of the folder hits.  A path is appended to the scan trace exactly when
the refresh branch invokes a mailbox scan. -/
def searchStep (noIndex : Bool) (accountEmail : String) (dirToAccount : List (String × String))
    (matchF : String → Bool) (since till : Nat) (limit maxMessages tailCount : Nat)
    (savedAtNow : Nat) (acc : SearchAcc) (ctx : FolderCtx) : SearchAcc :=
  let targetAccount := if accountEmail = "" then accountForPath ctx.path dirToAccount else accountEmail
  let entryOpt : Option FolderIndex :=
    if noIndex then none
    else
      match ctx.stat with
      | none => none
      | some (mt, sz) =>
          match acc.folders.lookup ctx.path with
          | none => none
          | some e =>
              if e.modTime = mt ∧ e.size = sz ∧ e.complete ∧ ¬ hasMissingDates e.messages then some e
              else none
  let useCache := entryOpt.isSome
  let more0 :=
    match entryOpt with
    | some e => filterMsgs targetAccount accountEmail ctx.path dirToAccount since till matchF e.messages
    | none => []
  let notComplete : Bool := match entryOpt with | some e => ! e.complete | none => false
  let needRefresh : Bool :=
    noIndex || ! useCache || more0.length == 0 || (decide (limit > 0 ∧ more0.length < limit)) || notComplete
  let refreshed :=
    if needRefresh then
      if noIndex then
        match ctx.content with
        | none => (acc.folders, acc.changed, more0)
        | some items =>
            (acc.folders, acc.changed,
             searchMailbox ctx.name matchF 0 since till maxMessages targetAccount tailCount items)
      else
        match buildFolderIndex ctx targetAccount maxMessages tailCount savedAtNow with
        | none => (acc.folders, acc.changed, more0)
        | some e =>
            (putFolder acc.folders ctx.path e, true,
             filterMsgs targetAccount accountEmail ctx.path dirToAccount since till matchF e.messages)
    else (acc.folders, acc.changed, more0)
  let scanned1 := if needRefresh then acc.scanned ++ [ctx.path] else acc.scanned
  let merged := dedupInto acc.seenKeys acc.hits refreshed.2.2
  { folders := refreshed.1, changed := refreshed.2.1,
    hits := merged.2, seenKeys := merged.1, scanned := scanned1 }

/-- Sort comparison of `App.search` (the `sort.Slice` less function):
with two zero timestamps, raw date string descending; a zero timestamp
sorts after any parsed one; otherwise later timestamps first. -/
def hitLess (a b : MailSummary) : Bool :=
  if a.whenTs = 0 ∧ b.whenTs = 0 then strGt a.date b.date
  else if a.whenTs = 0 then false
  else if b.whenTs = 0 then true
  else b.whenTs < a.whenTs

/-- Non-strict companion of `hitLess`: `a` may come no later than `b`. -/
def hitLe (a b : MailSummary) : Bool :=
  ! hitLess b a

/-- The merged-result sort of `App.search`, modelled by a sort that is
correct for the Go less function (Go `sort.Slice` is an unstable sort
for the same comparison). -/
def sortHits (hits : List MailSummary) : List MailSummary :=
  hits.mergeSort hitLe

/-- Outcome of a whole `App.search` invocation over a folder list:
final loop state, number of cache-file writes (`saveIndex` calls), and
the sorted, truncated hit list.  The early `No matches` return happens
before the save, so an empty merged list writes nothing. -/
structure SearchOutcome where
  acc : SearchAcc
  saves : Nat
  final : List MailSummary

/-- The tail of `App.search` after the folder loop: early return on no
hits (before saving), otherwise save once iff the cache is in use and
changed, then sort and truncate. -/
def searchRun (noIndex : Bool) (accountEmail : String) (dirToAccount : List (String × String))
    (matchF : String → Bool) (since till : Nat) (limit maxMessages tailCount : Nat)
    (savedAtNow : Nat) (cache0 : List (String × FolderIndex)) (ctxs : List FolderCtx) :
    SearchOutcome :=
  let acc := ctxs.foldl
    (searchStep noIndex accountEmail dirToAccount matchF since till limit maxMessages tailCount savedAtNow)
    { folders := cache0, changed := false, hits := [], seenKeys := [], scanned := [] }
  if acc.hits.isEmpty then
    { acc := acc, saves := 0, final := [] }
  else
    let saves := if ¬ noIndex ∧ acc.changed then 1 else 0
    let sorted := sortHits acc.hits
    let final := if limit > 0 ∧ sorted.length > limit then sorted.take limit else sorted
    { acc := acc, saves := saves, final := final }


/-- One row of the `tb_messages` table: primary key (profile,
message_id) plus the descriptive columns, in the order of the Go
INSERT. -/
structure PgRow where
  profile : String
  messageID : String
  folder : String
  subject : String
  sender : String
  snippet : String
  searchText : String
  whenTs : Nat
  dateStr : String
  account : String
deriving DecidableEq, Repr

/-- Go `forceUTF8`: strips NUL bytes and invalid UTF-8.  Lean strings
are always valid UTF-8, so the model strips NUL characters (the
invalid-byte removal has no counterpart on already-valid strings). -/
def forceUTF8 (s : String) : String :=
  if s = "" then s else ⟨s.data.filter (fun c => c ≠ Char.ofNat 0)⟩

/-- Days from the civil epoch 1970-01-01 for a Gregorian date (the
standard days-from-civil computation used to model Go `time` epoch
arithmetic); valid for the post-1970 dates handled here. -/
def daysFromCivil (y m d : Nat) : Int :=
  let y' : Int := if m ≤ 2 then (y : Int) - 1 else (y : Int)
  let era : Int := y' / 400
  let yoe : Int := y' - era * 400
  let mp : Int := ((m : Int) + 9) % 12
  let doy : Int := (153 * mp + 2) / 5 + (d : Int) - 1
  let doe : Int := yoe * 365 + yoe / 4 - yoe / 100 + doy
  era * 146097 + doe - 719468

/-- Epoch seconds of a civil date-time with a UTC offset in seconds. -/
def epochOf (y mo d h mi s : Nat) (offset : Int) : Int :=
  daysFromCivil y mo d * 86400 + (h : Int) * 3600 + (mi : Int) * 60 + (s : Int) - offset

/-- Gregorian leap-year test. -/
def isLeapYear (y : Nat) : Bool :=
  (y % 4 = 0 ∧ y % 100 ≠ 0) ∨ y % 400 = 0

/-- Days in a month, as Go `time` validates them. -/
def daysInMonth (y mo : Nat) : Nat :=
  if mo = 2 then (if isLeapYear y then 29 else 28)
  else if mo = 4 ∨ mo = 6 ∨ mo = 9 ∨ mo = 11 then 30
  else 31

/-- Digit test and value. -/
def isDigitChar (c : Char) : Bool :=
  '0' ≤ c ∧ c ≤ '9'

/-- Numeric value of a digit char. -/
def digitVal (c : Char) : Nat :=
  c.toNat - '0'.toNat

/-- Reads exactly `n` digits, returning the value and the rest. -/
def readDigits : Nat → List Char → Option (Nat × List Char)
  | 0, l => some (0, l)
  | _ + 1, [] => none
  | n + 1, c :: rest =>
      if isDigitChar c then
        match readDigits n rest with
        | some (v, l) => some (digitVal c * 10 ^ n + v, l)
        | none => none
      else none

/-- Model of Go `time.Parse` RFC3339 consumption: date, `T`, time,
optional fraction, `Z` or a signed `hh:mm` offset, with Go range
checks.  Used only by the Upsert date fallback. -/
def parseRFC3339 (s : String) : Option Int :=
  match readDigits 4 s.data with
  | none => none
  | some (y, r1) =>
    match r1 with
    | '-' :: r2 =>
      match readDigits 2 r2 with
      | none => none
      | some (mo, r3) =>
        match r3 with
        | '-' :: r4 =>
          match readDigits 2 r4 with
          | none => none
          | some (d, r5) =>
            match r5 with
            | 'T' :: r6 =>
              match readDigits 2 r6 with
              | none => none
              | some (h, r7) =>
                match r7 with
                | ':' :: r8 =>
                  match readDigits 2 r8 with
                  | none => none
                  | some (mi, r9) =>
                    match r9 with
                    | ':' :: r10 =>
                      match readDigits 2 r10 with
                      | none => none
                      | some (sec, r11) =>
                        let r12 := match r11 with
                          | '.' :: r => r.dropWhile isDigitChar
                          | r => r
                        let zone : Option Int := match r12 with
                          | ['Z'] => some 0
                          | '+' :: rz =>
                            (match readDigits 2 rz with
                             | some (zh, ':' :: rz2) =>
                               (match readDigits 2 rz2 with
                                | some (zm, []) => some ((zh : Int) * 3600 + (zm : Int) * 60)
                                | _ => none)
                             | _ => none)
                          | '-' :: rz =>
                            (match readDigits 2 rz with
                             | some (zh, ':' :: rz2) =>
                               (match readDigits 2 rz2 with
                                | some (zm, []) => some (-((zh : Int) * 3600 + (zm : Int) * 60))
                                | _ => none)
                             | _ => none)
                          | _ => none
                        match zone with
                        | none => none
                        | some off =>
                          if 1 ≤ mo ∧ mo ≤ 12 ∧ 1 ≤ d ∧ d ≤ daysInMonth y mo ∧ h ≤ 23 ∧ mi ≤ 59 ∧ sec ≤ 59 then
                            some (epochOf y mo d h mi sec off)
                          else none
                    | _ => none
                | _ => none
            | _ => none
        | _ => none
    | _ => none

/-- The row the Go `Upsert` loop binds for one summary: the zero-time
fallback parses the date string as RFC3339, and every text column except
`profile` passes through `forceUTF8`. -/
def rowOf (m : MailSummary) : PgRow :=
  let whenVal : Nat :=
    if m.whenTs = 0 ∧ m.date ≠ "" then
      match parseRFC3339 m.date with
      | some t => t.toNat
      | none => m.whenTs
    else m.whenTs
  { profile := m.profile, messageID := forceUTF8 m.messageID, folder := forceUTF8 m.folder,
    subject := forceUTF8 m.subject, sender := forceUTF8 m.sender, snippet := forceUTF8 m.snippet,
    searchText := forceUTF8 m.searchBlob, whenTs := whenVal, dateStr := forceUTF8 m.date,
    account := forceUTF8 m.account }

/-- Key of a row, the (profile, message_id) primary key. -/
def keyOf (r : PgRow) : String × String :=
  (r.profile, r.messageID)

/-- One INSERT ... ON CONFLICT (profile, message_id) DO UPDATE: rows
with the key are overwritten column-for-column with the excluded values
(which includes the unchanged key), otherwise the row is inserted. -/
def upsertRow (db : List PgRow) (r : PgRow) : List PgRow :=
  if db.any (fun x => keyOf x = keyOf r) then
    db.map (fun x => if keyOf x = keyOf r then r else x)
  else db ++ [r]

/-- Go `pgStore.Upsert`: the batched transactional loop (a batch either
fully commits, as modelled, or leaves the table unchanged). -/
def pgUpsert (db : List PgRow) (msgs : List MailSummary) : List PgRow :=
  msgs.foldl (fun d m => upsertRow d (rowOf m)) db

/-- Go `pgStore.PruneMissing`: with an empty keep-list it returns at
once; otherwise DELETE the rows of the profile whose message_id is
not in the keep-list. -/
def pruneMissing (db : List PgRow) (profile : String) (keepIDs : List String) : List PgRow :=
  if keepIDs.length = 0 then db
  else db.filter (fun r => ! (r.profile = profile ∧ ¬ keepIDs.contains r.messageID))

/-- Prune as the claim words it, for every keep-list: delete exactly the
rows of the profile whose identifier is not in the keep-list.  Stated
from the spec sentence, to be compared with `pruneMissing`. -/
def pruneClaimed (db : List PgRow) (profile : String) (keepIDs : List String) : List PgRow :=
  db.filter (fun r => ! (r.profile = profile ∧ ¬ keepIDs.contains r.messageID))

/-- Digit char for a value below 10. -/
def digitChar (n : Nat) : Char :=
  Char.ofNat ('0'.toNat + n)

/-- Go `normalizeTZOffset`: every leftmost occurrence of a sign followed
by four digits has its two-digit hour clamped to 23 and its two-digit
minute clamped to 59, re-rendered with `%02d%02d`. -/
def normTZAux : List Char → List Char
  | c :: d1 :: d2 :: d3 :: d4 :: rest2 =>
      if (c = '+' ∨ c = '-') ∧ (isDigitChar d1 && isDigitChar d2 && isDigitChar d3 && isDigitChar d4) then
        let hh0 := digitVal d1 * 10 + digitVal d2
        let mm0 := digitVal d3 * 10 + digitVal d4
        let hh := if hh0 > 23 then 23 else hh0
        let mm := if mm0 > 59 then 59 else mm0
        c :: digitChar (hh / 10) :: digitChar (hh % 10) ::
          digitChar (mm / 10) :: digitChar (mm % 10) :: normTZAux rest2
      else c :: normTZAux (d1 :: d2 :: d3 :: d4 :: rest2)
  | c :: rest => c :: normTZAux rest
  | [] => []

/-- Go `normalizeTZOffset` on strings. -/
def normalizeTZOffset (s : String) : String :=
  ⟨normTZAux s.data⟩

/-- The `regexp.MustCompile("([+-]\\d{4})").ReplaceAllString(norm, "")`
step of `parseDateFlexible`: leftmost sign-plus-four-digit groups are
deleted. -/
def stripTZAux : List Char → List Char
  | c :: d1 :: d2 :: d3 :: d4 :: rest2 =>
      if (c = '+' ∨ c = '-') ∧ (isDigitChar d1 && isDigitChar d2 && isDigitChar d3 && isDigitChar d4) then
        stripTZAux rest2
      else c :: stripTZAux (d1 :: d2 :: d3 :: d4 :: rest2)
  | c :: rest => c :: stripTZAux rest
  | [] => []

/-- TZ-offset deletion on strings. -/
def stripTZOffsets (s : String) : String :=
  ⟨stripTZAux s.data⟩

/-- Month number of a three-letter month name. -/
def monthNum (s : String) : Option Nat :=
  if s = "Jan" then some 1 else if s = "Feb" then some 2 else if s = "Mar" then some 3
  else if s = "Apr" then some 4 else if s = "May" then some 5 else if s = "Jun" then some 6
  else if s = "Jul" then some 7 else if s = "Aug" then some 8 else if s = "Sep" then some 9
  else if s = "Oct" then some 10 else if s = "Nov" then some 11 else if s = "Dec" then some 12
  else none

/-- Valid three-letter weekday name. -/
def isDayName (s : String) : Bool :=
  s = "Mon" || s = "Tue" || s = "Wed" || s = "Thu" || s = "Fri" || s = "Sat" || s = "Sun"

/-- Reads a 1- or 2-digit field. -/
def numField (s : String) : Option Nat :=
  match s.data with
  | [c] => if isDigitChar c then some (digitVal c) else none
  | [c, d] => if isDigitChar c && isDigitChar d then some (digitVal c * 10 + digitVal d) else none
  | _ => none

/-- Reads a 4-digit year field. -/
def yearField (s : String) : Option Nat :=
  match readDigits 4 s.data with
  | some (y, []) => some y
  | _ => none

/-- Reads `hh:mm` or `hh:mm:ss` with the Go `time.Parse` range checks
(hour at most 23, minute and second at most 59). -/
def timeField (s : String) : Option (Nat × Nat × Nat) :=
  let parts := s.data.splitOn ':'
  let get2 := fun (l : List Char) =>
    match l with
    | [c] => if isDigitChar c then some (digitVal c) else none
    | [c, d] => if isDigitChar c && isDigitChar d then some (digitVal c * 10 + digitVal d) else none
    | _ => none
  match parts with
  | [hp, mp] =>
      (match get2 hp, get2 mp with
       | some h, some mi => if h ≤ 23 ∧ mi ≤ 59 then some (h, mi, 0) else none
       | _, _ => none)
  | [hp, mp, sp] =>
      (match get2 hp, get2 mp, get2 sp with
       | some h, some mi, some sec => if h ≤ 23 ∧ mi ≤ 59 ∧ sec ≤ 59 then some (h, mi, sec) else none
       | _, _, _ => none)
  | _ => none

/-- Reads an RFC5322 zone field as Go `mail.ParseDate` accepts it: a
sign plus four digits with hour at most 23 and minute at most 59
(out-of-range offsets are rejected, which is what `normalizeTZOffset`
exists to repair), or an alphabetic abbreviation (offset 0 for the
epoch model). -/
def zoneField (s : String) : Option Int :=
  match s.data with
  | c :: d1 :: d2 :: d3 :: [d4] =>
      if (c = '+' ∨ c = '-') && isDigitChar d1 && isDigitChar d2 && isDigitChar d3 && isDigitChar d4 then
        let hh := digitVal d1 * 10 + digitVal d2
        let mm := digitVal d3 * 10 + digitVal d4
        if hh ≤ 23 ∧ mm ≤ 59 then
          let off : Int := (hh : Int) * 3600 + (mm : Int) * 60
          some (if c = '-' then -off else off)
        else none
      else if s.data.all (fun ch => ('A' ≤ ch ∧ ch ≤ 'Z') ∨ ('a' ≤ ch ∧ ch ≤ 'z')) then some 0
      else none
  | l =>
      if l ≠ [] ∧ l.all (fun ch => ('A' ≤ ch ∧ ch ≤ 'Z') ∨ ('a' ≤ ch ∧ ch ≤ 'z')) then some 0
      else none

/-- Validates a civil date and returns epoch seconds. -/
def civilEpoch (y mo d h mi sec : Nat) (off : Int) : Option Int :=
  if 1 ≤ mo ∧ mo ≤ 12 ∧ 1 ≤ d ∧ d ≤ daysInMonth y mo then some (epochOf y mo d h mi sec off)
  else none

/-- Model of Go `mail.ParseDate` over its layout core: optional
`Mon, ` weekday, 1-2 digit day, month name, 4-digit year, `hh:mm[:ss]`
with range checks, and a mandatory zone. -/
def goMailParseDate (s : String) : Option Int :=
  let fs := fieldsGo (trimSpaceGo s)
  let fs1 :=
    match fs with
    | w :: rest =>
        (match w.data with
         | [a, b, c, ','] => if isDayName ⟨[a, b, c]⟩ then rest else fs
         | _ => fs)
    | [] => fs
  match fs1 with
  | [dayF, monF, yearF, timeF, zoneF] =>
      (match numField dayF, monthNum monF, yearField yearF, timeField timeF, zoneField zoneF with
       | some d, some mo, some y, some (h, mi, sec), some off => civilEpoch y mo d h mi sec off
       | _, _, _, _, _ => none)
  | _ => none

/-- Model of `time.Parse` for one of the four zoneless fallback layouts
of `parseDateFlexible`: optional weekday, day, month name, 4-digit
year, and a time with or without seconds, interpreted in UTC. -/
def parseLayout (withDay withSec : Bool) (s : String) : Option Int :=
  let fs := fieldsGo s
  let core :=
    if withDay then
      match fs with
      | w :: rest =>
          (match w.data with
           | [a, b, c, ','] => if isDayName ⟨[a, b, c]⟩ then some rest else none
           | _ => none)
      | [] => none
    else some fs
  match core with
  | none => none
  | some [dayF, monF, yearF, timeF] =>
      (match numField dayF, monthNum monF, yearField yearF, timeField timeF with
       | some d, some mo, some y, some (h, mi, sec) =>
           if withSec then
             (if (timeF.data.filter (fun c => c = ':')).length = 2 then civilEpoch y mo d h mi sec 0 else none)
           else
             (if (timeF.data.filter (fun c => c = ':')).length = 1 then civilEpoch y mo d h mi sec 0 else none)
       | _, _, _, _ => none)
  | some _ => none

/-- The fallback layout chain of `parseDateFlexible`, in source order:
`Mon, 2 Jan 2006 15:04:05`, `2 Jan 2006 15:04:05`,
`Mon, 2 Jan 2006 15:04`, `2 Jan 2006 15:04`. -/
def tryLayouts (s : String) : Option Int :=
  match parseLayout true true s with
  | some t => some t
  | none =>
    match parseLayout false true s with
    | some t => some t
    | none =>
      match parseLayout true false s with
      | some t => some t
      | none => parseLayout false false s

/-- Go `parseDateFlexible`: empty header fails; primary RFC parse; on
failure normalize the TZ offset and retry; on failure strip offsets and
try the four legacy layouts on the trimmed remainder. -/
def parseDateFlexible (dateHeader : String) : Option Int :=
  if dateHeader = "" then none
  else
    match goMailParseDate dateHeader with
    | some t => some t
    | none =>
      let norm := normalizeTZOffset dateHeader
      match goMailParseDate norm with
      | some t => some t
      | none => tryLayouts (trimSpaceGo (stripTZOffsets norm))

/-- The date fields of the summary built by `parseMessage`: on parse
success the displayable date is the locally formatted time (the
formatter stands for `t.In(time.Local).Format`, an environment
dependency); on failure the raw header is kept and the timestamp stays
unset. -/
def messageDateOf (fmtLocal : Int → String) (dateHeader : String) : String × Option Int :=
  match parseDateFlexible dateHeader with
  | some t => (fmtLocal t, some t)
  | none => (dateHeader, none)

/-- Per-part decode cap from the Go constants (`maxPartBytes = 2 << 20`). -/
def maxPartBytes : Nat := 2097152

/-- Value of a base64 alphabet char (standard encoding). -/
def b64Val (c : Char) : Option Nat :=
  if 'A' ≤ c ∧ c ≤ 'Z' then some (c.toNat - 'A'.toNat)
  else if 'a' ≤ c ∧ c ≤ 'z' then some (c.toNat - 'a'.toNat + 26)
  else if '0' ≤ c ∧ c ≤ '9' then some (c.toNat - '0'.toNat + 52)
  else if c = '+' then some 62
  else if c = '/' then some 63
  else none

/-- Four-char base64 groups to bytes, with padding allowed only in the
final group; malformed input is an error, as in `base64.StdEncoding`. -/
def b64Groups : List Char → Option (List Char)
  | [] => some []
  | c1 :: c2 :: c3 :: c4 :: rest =>
      (match b64Val c1, b64Val c2 with
       | some v1, some v2 =>
           let byte1 := Char.ofNat (v1 * 4 + v2 / 16)
           if c3 = '=' ∧ c4 = '=' ∧ rest = [] then some [byte1]
           else
             (match b64Val c3 with
              | some v3 =>
                  let byte2 := Char.ofNat (v2 % 16 * 16 + v3 / 4)
                  if c4 = '=' ∧ rest = [] then some [byte1, byte2]
                  else
                    (match b64Val c4 with
                     | some v4 =>
                         (b64Groups rest).map (fun tl => byte1 :: byte2 :: Char.ofNat (v3 % 4 * 64 + v4) :: tl)
                     | none => none)
              | none => none)
       | _, _ => none)
  | _ => none

/-- Model of the Go base64 stream decoder, which skips newline bytes. -/
def b64Decode (s : String) : Option (List Char) :=
  b64Groups (s.data.filter (fun c => c ≠ '\n' ∧ c ≠ '\r'))

/-- Hex digit value. -/
def hexVal (c : Char) : Option Nat :=
  let v := c.toNat
  if 48 ≤ v ∧ v ≤ 57 then some (v - 48)
  else if 65 ≤ v ∧ v ≤ 70 then some (v - 55)
  else if 97 ≤ v ∧ v ≤ 102 then some (v - 87)
  else none

/-- Model of the Go quoted-printable reader: `=XX` escapes, soft line
breaks, and an error on a malformed escape. -/
def qpAux : List Char → Option (List Char)
  | [] => some []
  | '=' :: '\r' :: '\n' :: rest => qpAux rest
  | '=' :: '\n' :: rest => qpAux rest
  | '=' :: c1 :: c2 :: rest =>
      (match hexVal c1, hexVal c2 with
       | some h1, some h2 => (qpAux rest).map (fun tl => Char.ofNat (h1 * 16 + h2) :: tl)
       | _, _ => none)
  | ['='] => none
  | ['=', _] => none
  | c :: rest => (qpAux rest).map (fun tl => c :: tl)

/-- Go `decodeBodyContent`: dispatch on the lowered, trimmed
transfer-encoding; decoded output is capped at `maxPartBytes` by the
limit reader; anything else passes through unchanged. -/
def decodeBodyContent (encoding body : String) : Option String :=
  let e := toLowerGo (trimSpaceGo encoding)
  if e = "base64" then (b64Decode body).map (fun l => (⟨l.take maxPartBytes⟩ : String))
  else if e = "quoted-printable" then (qpAux body.data).map (fun l => (⟨l.take maxPartBytes⟩ : String))
  else some body

/-- Drops chars through the closing `>` of a tag. -/
def dropTag : List Char → List Char
  | [] => []
  | c :: rest => if c = '>' then rest else dropTag rest

/-- Text runs of an HTML body: the text between tags, the model of the
`x/net/html` tokenizer text tokens consumed by `htmlToText`. -/
def htmlChunks : List Char → List Char → List (List Char)
  | [], cur => [cur.reverse]
  | '<' :: rest, cur => cur.reverse :: htmlChunks (dropTag rest) []
  | c :: rest, cur => htmlChunks rest (c :: cur)
termination_by l _ => l.length
decreasing_by
  · have hb : ∀ l : List Char, (dropTag l).length ≤ l.length := by
      intro l
      induction l with
      | nil => simp [dropTag]
      | cons c tl ih =>
          simp only [dropTag]
          split
          · simp
          · exact Nat.le_trans ih (Nat.le_succ _)
    exact Nat.lt_succ_of_le (hb rest)
  · simp +arith [List.length_cons]

/-- Go `htmlToText`: trimmed non-empty text tokens joined with single
spaces, then whitespace-normalized once more with `Fields`. -/
def htmlToText (htmlBody : String) : String :=
  let chunks := htmlChunks htmlBody.data []
  let b := chunks.foldl
    (fun acc chunk =>
      let t := trimSpaceGo ⟨chunk⟩
      if t ≠ "" then (if acc ≠ "" then acc ++ " " ++ t else t) else acc) ""
  joinSpace (fieldsGo b)

/-- Header data of one MIME part as the external stdlib parsers deliver
it to `extractText`: the `mime.ParseMediaType` result (`none` models a
parse error), its parameter map, the disposition header, and the
transfer-encoding header. -/
structure PartMeta where
  mediaTypeRes : Option String
  params : List (String × String)
  disposition : String
  encoding : String
deriving Repr

/-- A MIME body tree: the raw body bytes of the part plus the subparts
the external `multipart.Reader` would yield for a multipart body. -/
inductive MimePart where
  | mk (meta : PartMeta) (body : String) (subparts : List MimePart)
deriving Repr

mutual
/-- Go `extractText`: media type defaults to text/plain on a parse
failure; a multipart body without a boundary yields nothing, with a
boundary its parts are folded keeping the first non-empty plain and
html texts; a leaf with an attachment disposition (or a non-text media
type) is excluded; otherwise the body is transfer-decoded, charset
converted best-effort through `conv` (the external charset reader), and
an html leaf lands in the fallback slot as flattened text.  `cap` is
the limit-reader bound the caller read the part body under. -/
def extractText (conv : String → String → Option String) (cap : Option Nat) :
    MimePart → String × String
  | .mk meta body subs =>
      let mediaType :=
        match meta.mediaTypeRes with
        | none => "text/plain"
        | some mt => if mt = "" then "text/plain" else mt
      if strHasPre mediaType "multipart/" then
        if ((meta.params.lookup "boundary").getD "") = "" then ("", "")
        else extractParts conv subs ("", "")
      else
        let bodyIn : String := match cap with | some n => ⟨body.data.take n⟩ | none => body
        if strContains (toLowerGo meta.disposition) "attachment" then ("", "")
        else if ¬ strHasPre mediaType "text/plain" ∧ ¬ strHasPre mediaType "text/html" then ("", "")
        else
          let decoded :=
            match decodeBodyContent meta.encoding bodyIn with
            | some d => d
            | none => bodyIn
          let decoded2 :=
            match meta.params.lookup "charset" with
            | some cs =>
                if toLowerGo cs ≠ "utf-8" then
                  (match conv decoded cs with
                   | some cv => cv
                   | none => decoded)
                else decoded
            | none => decoded
          if strHasPre mediaType "text/html" then ("", htmlToText decoded2)
          else (decoded2, "")

/-- The part loop of `extractText`: each part is read under the
per-part cap and contributes to whichever of the two slots is still
empty. -/
def extractParts (conv : String → String → Option String) :
    List MimePart → String × String → String × String
  | [], acc => acc
  | p :: rest, acc =>
      let pr := extractText conv (some maxPartBytes) p
      let plain1 := if pr.1 ≠ "" ∧ acc.1 = "" then pr.1 else acc.1
      let fb1 := if pr.2 ≠ "" ∧ acc.2 = "" then pr.2 else acc.2
      extractParts conv rest (plain1, fb1)
end

/-- The body-selection glue of `parseMessage`: the plain text, or the
html fallback when the plain text is empty. -/
def bodyTextOf (plainAlt : String × String) : String :=
  if plainAlt.1 = "" then plainAlt.2 else plainAlt.1

/-- First row of the table with the given primary key (the table
invariant keeps at most one). -/
def dbLookup (db : List PgRow) (k : String × String) : Option PgRow :=
  db.find? (fun r => keyOf r = k)

/-- Row written last for a key by an upsert batch, if any. -/
def lastWrite : List MailSummary → String × String → Option PgRow
  | [], _ => none
  | m :: ms, k =>
      match lastWrite ms k with
      | some r => some r
      | none => if keyOf (rowOf m) = k then some (rowOf m) else none

/-- The account-label and search-blob stamping prefix of one
`filterMsgs` iteration, factored out for reasoning; it is definitionally
the `im1`/`im2` computation of `filterMsgs`. -/
def stampSummary (targetAccount boxPath : String) (dirToAccount : List (String × String))
    (im : MailSummary) : MailSummary :=
  let im1 :=
    if im.account = "" then
      if targetAccount ≠ "" then { im with account := targetAccount }
      else
        let acct := accountForPath boxPath dirToAccount
        if acct ≠ "" then { im with account := acct } else im
    else im
  if im1.searchBlob = "" then
    { im1 with searchBlob := toLowerGo (joinSpace [im1.subject, im1.sender, im1.snippet]) }
  else im1

/-- Example summary with a parsed date and search blob `hello`, used by
the cache-reuse analysis. -/
def exMsgA : MailSummary :=
  ⟨"Inbox", "s", "a@b", "2024-01-01", "idA", "sn", 7, "", "hello", "", ""⟩

/-- Example folder whose file fingerprint is (5, 100) and whose mailbox
content is empty. -/
def exCtx1 : FolderCtx :=
  ⟨"Inbox", "/m/Inbox", some (5, 100), some []⟩

/-- Example folder like `exCtx1` but whose mailbox content holds one
message. -/
def exCtx2 : FolderCtx :=
  ⟨"Inbox", "/m/Inbox", some (5, 100), some [.msg exMsgA "hello"]⟩

/-- Loop state holding a cache entry for `exCtx1` whose fingerprint
matches the file, marked complete, with no missing dates. -/
def exAccFresh : SearchAcc :=
  ⟨[("/m/Inbox", ⟨5, 100, [exMsgA], 0, true⟩)], false, [], [], []⟩

/-- A cache map whose entry for `exCtx1` has a stale fingerprint. -/
def exCacheStale : List (String × FolderIndex) :=
  [("/m/Inbox", ⟨1, 50, [exMsgA], 0, true⟩)]

/-- Loop state holding the stale entry of `exCacheStale`. -/
def exAccStale : SearchAcc :=
  ⟨exCacheStale, false, [], [], []⟩

/-- Example row constructor for the prune analysis. -/
def exRow (p id : String) : PgRow :=
  ⟨p, id, "f", "s", "snd", "sn", "st", 1, "d", "a"⟩

/-- Store with identifiers a, b, c under profile p and one row under
profile q. -/
def exDb3 : List PgRow :=
  [exRow "p" "a", exRow "p" "b", exRow "p" "c", exRow "q" "b"]

/-- Scan-scenario message `n`: sequential id and timestamp. -/
def scanMsg (n : Nat) : MailSummary :=
  ⟨"Inbox", "subj" ++ toString n, "a@b", "d" ++ toString n, "id" ++ toString n, "",
   100 + n, "", "blob" ++ toString n, "", ""⟩

/-- Ten sequential messages for the tail-window scenario. -/
def scanItems10 : List MboxItem :=
  (List.range 10).map (fun n => .msg (scanMsg n) ("blob" ++ toString n))

/-- All-empty-key summary with only a snippet, for the dedup fallback. -/
def exEmptySum (snip : String) : MailSummary :=
  ⟨"", "", "", "", "", snip, 0, "", "", "", ""⟩

/-- The multipart message of the round-trip scenario: an attachment
part first, then the plain-text part, then the html alternate. -/
def exMime : MimePart :=
  .mk ⟨some "multipart/alternative", [("boundary", "b1")], "", ""⟩ ""
    [ .mk ⟨some "text/plain", [], "attachment; filename=x.txt", ""⟩ "ignored attachment" [],
      .mk ⟨some "text/plain", [], "", ""⟩ "Hello world" [],
      .mk ⟨some "text/html", [], "", ""⟩ "<p>Hi <b>there</b></p>" [] ]

/-- A lone text/plain part carrying an attachment disposition. -/
def exAttachLeaf : MimePart :=
  .mk ⟨some "text/plain", [], "attachment; filename=x.txt", ""⟩ "ignored attachment" []

/-- Summary with an unset timestamp, for the date-filter analysis. -/
def exZeroSum : MailSummary :=
  ⟨"Inbox", "s0", "a@b", "", "idZ", "sn", 0, "", "hello", "", ""⟩

/-- C3 counterexample: with the empty keep-list, `PruneMissing` returns
without deleting anything, while the claim (for every keep-list, delete
exactly the rows of the profile whose identifier is not kept) would
empty the profile; on the store {p/a, p/b, p/c, q/b} the two differ. -/
theorem pruneMissing_empty_keep_counterexample :
    pruneMissing exDb3 "p" [] = exDb3 ∧
    pruneClaimed exDb3 "p" [] = [exRow "q" "b"] ∧
    pruneMissing exDb3 "p" [] ≠ pruneClaimed exDb3 "p" [] :=
  ⟨by decide, by decide, by decide⟩

/-- C3 amended: for every non-empty keep-list, prune removes exactly the
rows of the profile whose identifier is not in the keep-list and leaves
other profiles untouched; in particular stored identifiers {a,b,c} with
keep-list {a,c} leave exactly {a,c} for the profile and q/b intact.
With an empty keep-list the operation is a guard-protected no-op. -/
theorem pruneMissing_amended : ∀ (db : List PgRow) (profile : String) (keepIDs : List String),
    keepIDs ≠ [] →
    pruneMissing db profile keepIDs = pruneClaimed db profile keepIDs ∧
    (∀ r : PgRow, r ∈ pruneMissing db profile keepIDs ↔
        r ∈ db ∧ (r.profile ≠ profile ∨ r.messageID ∈ keepIDs)) ∧
    pruneMissing exDb3 "p" ["a", "c"] = [exRow "p" "a", exRow "p" "c", exRow "q" "b"] := by
  intro db profile keepIDs hne
  have hlen : ¬ keepIDs.length = 0 := by
    intro h; exact hne (List.length_eq_zero.mp h)
  refine ⟨by simp [pruneMissing, pruneClaimed, hlen], ?_, by decide⟩
  intro r
  simp only [pruneMissing, if_neg hlen, List.mem_filter]
  constructor
  · rintro ⟨hm, hp⟩
    refine ⟨hm, ?_⟩
    by_cases h1 : r.profile = profile
    · right
      simp [h1] at hp
      exact hp
    · left; exact h1
  · rintro ⟨hm, hor⟩
    refine ⟨hm, ?_⟩
    rcases hor with h1 | h2
    · simp [h1]
    · simp [h2]

/-- C3 witness: the amended theorem applied to the scenario store. -/
theorem pruneMissing_amended_witness :
    pruneMissing exDb3 "p" ["a", "c"] = pruneClaimed exDb3 "p" ["a", "c"] :=
  (pruneMissing_amended exDb3 "p" ["a", "c"] (by decide)).1

/-- C7: the header `Fri, 2 Feb 2024 99:99 +9960` parses without error
to no timestamp: the normalization pass clamps the offset to `+2359`,
the legacy layout chain is tried on the offset-stripped remainder and
also fails, and the resulting summary keeps the raw non-empty header as
its displayable date with the timestamp unset. -/
theorem parseDateFlexible_scenario :
    (∀ fmtLocal : Int → String,
        messageDateOf fmtLocal "Fri, 2 Feb 2024 99:99 +9960" =
          ("Fri, 2 Feb 2024 99:99 +9960", none)) ∧
    normalizeTZOffset "Fri, 2 Feb 2024 99:99 +9960" = "Fri, 2 Feb 2024 99:99 +2359" ∧
    parseDateFlexible "Fri, 2 Feb 2024 99:99 +9960" = none ∧
    tryLayouts (trimSpaceGo (stripTZOffsets (normalizeTZOffset "Fri, 2 Feb 2024 99:99 +9960"))) = none ∧
    "Fri, 2 Feb 2024 99:99 +9960" ≠ "" := by
  refine ⟨?_, by decide, by decide, by decide, by decide⟩
  intro fmtLocal
  have h : parseDateFlexible "Fri, 2 Feb 2024 99:99 +9960" = none := by decide
  simp [messageDateOf, h]

/-- C8: extracting the multipart message with an attachment part, a
`text/plain` part `Hello world`, and an html-only alternate yields the
plain text as the primary body (preferred over the html fallback, with
the attachment part excluded) and the snippet `Hello world`; an
attachment-disposition leaf on its own contributes nothing. -/
theorem extractText_scenario : ∀ conv : String → String → Option String,
    extractText conv none exMime = ("Hello world", "Hi there") ∧
    bodyTextOf (extractText conv none exMime) = "Hello world" ∧
    firstNonEmptyLine (bodyTextOf (extractText conv none exMime)) = "Hello world" ∧
    extractText conv (some maxPartBytes) exAttachLeaf = ("", "") := by
  intro conv
  have h : extractText conv none exMime = ("Hello world", "Hi there") := by
    simp +decide [exMime, extractText, extractParts, maxPartBytes, decodeBodyContent, toLowerGo,
      trimSpaceGo, strContains, strHasPre, htmlToText, htmlChunks, dropTag, fieldsGo, fieldsGoAux,
      joinSpace, isSpaceChar, listContainsSub, listStartsWith, toLowerChar]
  refine ⟨h, ?_, ?_, ?_⟩
  · rw [h]; decide
  · rw [h]; decide
  · simp +decide [exAttachLeaf, extractText, toLowerGo, strContains, strHasPre,
      listContainsSub, listStartsWith, toLowerChar]

/-- Empty string from zero length. -/
theorem strOfLenZero {s : String} (h : s.length = 0) : s = "" :=
  String.ext (List.length_eq_zero.mp h)

/-- Invariant of the de-duplication loop: when every accumulated hit has
its key recorded and the accumulated hits have pairwise distinct keys,
so does the output. -/
theorem dedupInto_pairwise :
    ∀ (l : List MailSummary) (seen : List String) (hits : List MailSummary),
      (∀ m ∈ hits, dedupKey m ∈ seen) →
      hits.Pairwise (fun x y => dedupKey x ≠ dedupKey y) →
      (dedupInto seen hits l).2.Pairwise (fun x y => dedupKey x ≠ dedupKey y) := by
  intro l
  induction l with
  | nil => intro seen hits h1 h2; simpa [dedupInto] using h2
  | cons m rest ih =>
      intro seen hits h1 h2
      simp only [dedupInto]
      split
      · exact ih seen hits h1 h2
      · rename_i hnot
        apply ih (seen ++ [dedupKey m]) (hits ++ [m])
        · intro x hx
          rcases List.mem_append.mp hx with h | h
          · exact List.mem_append.mpr (Or.inl (h1 x h))
          · simp at h; subst h; simp
        · refine List.pairwise_append.mpr ⟨h2, List.pairwise_singleton _ _, ?_⟩
          intro x hx y hy
          simp at hy; subst hy
          intro heq
          have hmem : dedupKey x ∈ seen := h1 x hx
          rw [heq] at hmem
          simp [List.contains] at hnot
          exact hnot hmem

/-- The four-field composite differs from the bare separators whenever
some field is non-empty. -/
theorem compositeNe (m : MailSummary)
    (hne : ¬ (m.messageID = "" ∧ m.subject = "" ∧ m.date = "" ∧ m.folder = "")) :
    (m.messageID ++ "|" ++ m.subject ++ "|" ++ m.date ++ "|" ++ m.folder) ≠ "|||" := by
  intro h
  have hl := congrArg String.length h
  simp only [String.length_append] at hl
  have hbar : ("|" : String).length = 1 := by decide
  have hbars : ("|||" : String).length = 3 := by decide
  rw [hbar, hbars] at hl
  exact hne ⟨strOfLenZero (by omega), strOfLenZero (by omega),
    strOfLenZero (by omega), strOfLenZero (by omega)⟩

/-- C6: in the aggregated output no two summaries share a dedup key;
summaries with identical non-all-empty (message identifier, subject,
date, folder) tuples share a key (so at most one of them survives);
when all four fields are empty the key falls back to the (date,
snippet) pair, so the two identifier-less summaries with distinct
snippets both survive de-duplication. -/
theorem dedup_key_stability :
    (∀ l : List MailSummary, (dedupHits l).Pairwise (fun x y => dedupKey x ≠ dedupKey y)) ∧
    (∀ m₁ m₂ : MailSummary,
        m₁.messageID = m₂.messageID → m₁.subject = m₂.subject → m₁.date = m₂.date →
        m₁.folder = m₂.folder →
        ¬ (m₁.messageID = "" ∧ m₁.subject = "" ∧ m₁.date = "" ∧ m₁.folder = "") →
        dedupKey m₁ = dedupKey m₂) ∧
    (∀ m : MailSummary, m.messageID = "" → m.subject = "" → m.date = "" → m.folder = "" →
        dedupKey m = m.date ++ "|" ++ m.snippet) ∧
    dedupHits [exEmptySum "s1", exEmptySum "s2"] = [exEmptySum "s1", exEmptySum "s2"] ∧
    dedupKey (exEmptySum "s1") ≠ dedupKey (exEmptySum "s2") := by
  refine ⟨?_, ?_, ?_, by decide, by decide⟩
  · intro l
    exact dedupInto_pairwise l [] [] (by intro m hm; simp at hm) List.Pairwise.nil
  · intro m₁ m₂ hid hsub hdate hfold hne
    have hne₂ : ¬ (m₂.messageID = "" ∧ m₂.subject = "" ∧ m₂.date = "" ∧ m₂.folder = "") := by
      rw [← hid, ← hsub, ← hdate, ← hfold]; exact hne
    simp only [dedupKey]
    rw [if_neg (compositeNe m₁ hne), if_neg (compositeNe m₂ hne₂), hid, hsub, hdate, hfold]
  · intro m hid hsub hdate hfold
    simp only [dedupKey]
    rw [hid, hsub, hdate, hfold]
    simp

/-- C6 witness: the key-equality conjuncts applied to concrete
summaries. -/
theorem dedup_key_stability_witness :
    dedupKey exMsgA = dedupKey exMsgA ∧
    dedupKey (exEmptySum "s1") = (exEmptySum "s1").date ++ "|" ++ (exEmptySum "s1").snippet :=
  ⟨dedup_key_stability.2.1 exMsgA exMsgA rfl rfl rfl rfl (by decide),
   dedup_key_stability.2.2.1 (exEmptySum "s1") rfl rfl rfl rfl⟩

/-- Asymmetry of the lexicographic char-list order. -/
theorem clt_asymm : ∀ a b : List Char, charListLt a b = true → charListLt b a = false := by
  intro a
  induction a with
  | nil => intro b h; cases b <;> simp [charListLt] at h ⊢
  | cons x xs ih =>
      intro b h
      cases b with
      | nil => simp [charListLt] at h
      | cons y ys =>
          simp only [charListLt] at h ⊢
          by_cases hxy : x < y
          · rw [if_neg (lt_asymm hxy), if_pos hxy]
          · by_cases hyx : y < x
            · simp [hxy, hyx] at h
            · simp only [if_neg hxy, if_neg hyx] at h ⊢
              exact ih ys h

/-- Transitivity of the lexicographic char-list order. -/
theorem clt_trans : ∀ a b c : List Char,
    charListLt a b = true → charListLt b c = true → charListLt a c = true := by
  intro a
  induction a with
  | nil =>
      intro b c hab hbc
      cases b with
      | nil => simp [charListLt] at hab
      | cons y ys => cases c with
        | nil => simp [charListLt] at hbc
        | cons z zs => simp [charListLt]
  | cons x xs ih =>
      intro b c hab hbc
      cases b with
      | nil => simp [charListLt] at hab
      | cons y ys =>
          cases c with
          | nil => simp [charListLt] at hbc
          | cons z zs =>
              simp only [charListLt] at hab hbc ⊢
              by_cases hxy : x < y
              · by_cases hyz : y < z
                · rw [if_pos (lt_trans hxy hyz)]
                · by_cases hzy : z < y
                  · simp [hyz, hzy] at hbc
                  · have hyz' : y = z := le_antisymm (not_lt.mp hzy) (not_lt.mp hyz)
                    rw [if_pos (hyz' ▸ hxy)]
              · by_cases hyx : y < x
                · simp [hxy, hyx] at hab
                · have hxy' : x = y := le_antisymm (not_lt.mp hyx) (not_lt.mp hxy)
                  simp only [if_neg hxy, if_neg hyx] at hab
                  by_cases hyz : y < z
                  · rw [if_pos (hxy' ▸ hyz)]
                  · by_cases hzy : z < y
                    · simp [hyz, hzy] at hbc
                    · simp only [if_neg hyz, if_neg hzy] at hbc
                      subst hxy'
                      simp only [if_neg hyz, if_neg hzy]
                      exact ih ys zs hab hbc

/-- Totality companion: a non-less pair is greater or equal. -/
theorem clt_not_lt : ∀ a b : List Char,
    charListLt a b = false → charListLt b a = true ∨ a = b := by
  intro a
  induction a with
  | nil =>
      intro b h
      cases b with
      | nil => right; rfl
      | cons y ys => simp [charListLt] at h
  | cons x xs ih =>
      intro b h
      cases b with
      | nil => left; simp [charListLt]
      | cons y ys =>
          simp only [charListLt] at h ⊢
          by_cases hxy : x < y
          · simp [hxy] at h
          · by_cases hyx : y < x
            · left; rw [if_pos hyx]
            · simp only [if_neg hxy, if_neg hyx] at h
              have hx : x = y := le_antisymm (not_lt.mp hyx) (not_lt.mp hxy)
              rcases ih ys h with h1 | h2
              · left; rw [if_neg (hx ▸ hyx), if_neg (hx ▸ hxy)]; exact h1
              · right; rw [hx, h2]

/-- Negative transitivity of the lexicographic char-list order. -/
theorem clt_negtrans : ∀ a b c : List Char,
    charListLt a b = false → charListLt b c = false → charListLt a c = false := by
  intro a b c hab hbc
  by_contra hne
  have hac : charListLt a c = true := by
    cases h : charListLt a c
    · exact absurd h hne
    · rfl
  rcases clt_not_lt a b hab with h1 | h2
  · rcases clt_not_lt b c hbc with h3 | h4
    · have h5 : charListLt c a = true := clt_trans c b a h3 h1
      have h6 := clt_asymm _ _ h5
      rw [h6] at hac
      exact Bool.false_ne_true hac
    · subst h4
      rw [hab] at hac
      exact Bool.false_ne_true hac
  · subst h2
    rw [hbc] at hac
    exact Bool.false_ne_true hac

/-- The Go sort comparison is asymmetric. -/
theorem hitLess_asymm : ∀ a b : MailSummary,
    hitLess a b = true → hitLess b a = false := by
  intro a b h
  unfold hitLess at h ⊢
  by_cases za : a.whenTs = 0 <;> by_cases zb : b.whenTs = 0
  · rw [if_pos ⟨za, zb⟩] at h
    rw [if_pos ⟨zb, za⟩]
    simp only [strGt] at h ⊢
    exact clt_asymm _ _ h
  · rw [if_neg (fun hh => zb hh.2), if_pos za] at h
    exact absurd h (by simp)
  · rw [if_neg (fun hh => za hh.2), if_pos zb]
  · rw [if_neg (fun hh => za hh.1), if_neg za, if_neg zb] at h
    rw [if_neg (fun hh => zb hh.1), if_neg zb, if_neg za]
    simp at h ⊢
    omega

/-- Negative transitivity of the Go sort comparison. -/
theorem hitLess_negtrans : ∀ a b c : MailSummary,
    hitLess b a = false → hitLess c b = false → hitLess c a = false := by
  intro a b c hba hcb
  unfold hitLess at hba hcb ⊢
  by_cases za : a.whenTs = 0 <;> by_cases zb : b.whenTs = 0 <;> by_cases zc : c.whenTs = 0
  · rw [if_pos ⟨zb, za⟩] at hba
    rw [if_pos ⟨zc, zb⟩] at hcb
    rw [if_pos ⟨zc, za⟩]
    simp only [strGt] at hba hcb ⊢
    exact clt_negtrans _ _ _ hba hcb
  · rw [if_neg (fun hh => zc hh.1), if_neg zc, if_pos zb] at hcb
    simp at hcb
  · rw [if_neg (fun hh => zb hh.1), if_neg zb, if_pos za] at hba
    simp at hba
  · rw [if_neg (fun hh => zb hh.1), if_neg zb, if_pos za] at hba
    simp at hba
  · rw [if_neg (fun hh => za hh.2), if_pos zc]
  · rw [if_neg (fun hh => zc hh.1), if_neg zc, if_pos zb] at hcb
    simp at hcb
  · rw [if_neg (fun hh => za hh.2), if_pos zc]
  · rw [if_neg (fun hh => zb hh.1), if_neg zb, if_neg za] at hba
    rw [if_neg (fun hh => zc hh.1), if_neg zc, if_neg zb] at hcb
    rw [if_neg (fun hh => zc hh.1), if_neg zc, if_neg za]
    simp at hba hcb ⊢
    omega

/-- The non-strict companion of the sort comparison is transitive. -/
theorem hitLe_trans_bool : ∀ a b c : MailSummary,
    hitLe a b = true → hitLe b c = true → hitLe a c = true := by
  intro a b c hab hbc
  unfold hitLe at hab hbc ⊢
  simp only [Bool.not_eq_true'] at hab hbc ⊢
  exact hitLess_negtrans a b c hab hbc

/-- The non-strict companion of the sort comparison is total. -/
theorem hitLe_total_bool : ∀ a b : MailSummary, (hitLe a b || hitLe b a) = true := by
  intro a b
  unfold hitLe
  cases h : hitLess b a with
  | false => simp
  | true =>
      have h2 := hitLess_asymm b a h
      simp [h2]

/-- C5: the merged result sort is a permutation of the hits in which a
hit with a parsed timestamp never follows one without; among
timestamped hits later timestamps come first; among hits without a
timestamp the raw date strings are descending. -/
theorem search_sort_total_order :
    ∀ hits : List MailSummary,
      (sortHits hits).Pairwise (fun a b =>
        (a.whenTs = 0 → b.whenTs = 0 ∧ strGt b.date a.date = false) ∧
        (a.whenTs ≠ 0 → b.whenTs ≠ 0 → b.whenTs ≤ a.whenTs)) ∧
      (sortHits hits).Perm hits := by
  intro hits
  constructor
  · have h := @List.sorted_mergeSort MailSummary hitLe
      (fun a b c => hitLe_trans_bool a b c) (fun a b => hitLe_total_bool a b) hits
    refine h.imp ?_
    intro a b hab
    unfold hitLe at hab
    simp only [Bool.not_eq_true'] at hab
    constructor
    · intro za
      unfold hitLess at hab
      by_cases zb : b.whenTs = 0
      · rw [if_pos ⟨zb, za⟩] at hab
        exact ⟨zb, hab⟩
      · rw [if_neg (fun hh => zb hh.1), if_neg zb, if_pos za] at hab
        simp at hab
    · intro na nb
      unfold hitLess at hab
      rw [if_neg (fun hh => nb hh.1), if_neg nb, if_neg na] at hab
      simp at hab
      omega
  · exact List.mergeSort_perm hits hitLe

/-- Unfolding of one `filterMsgs` step through `stampSummary`. -/
theorem filterMsgs_cons (ta ae bp : String) (d2a : List (String × String)) (since till : Nat)
    (matchF : String → Bool) (im : MailSummary) (rest : List MailSummary) :
    filterMsgs ta ae bp d2a since till matchF (im :: rest) =
      (if since ≠ 0 ∧ (stampSummary ta bp d2a im).whenTs ≠ 0 ∧ (stampSummary ta bp d2a im).whenTs < since then
        filterMsgs ta ae bp d2a since till matchF rest
      else if till ≠ 0 ∧ (stampSummary ta bp d2a im).whenTs ≠ 0 ∧ (stampSummary ta bp d2a im).whenTs > till then
        filterMsgs ta ae bp d2a since till matchF rest
      else if ae ≠ "" ∧ toLowerGo (stampSummary ta bp d2a im).account ≠ ae then
        filterMsgs ta ae bp d2a since till matchF rest
      else if matchF (stampSummary ta bp d2a im).searchBlob then
        stampSummary ta bp d2a im :: filterMsgs ta ae bp d2a since till matchF rest
      else filterMsgs ta ae bp d2a since till matchF rest) := rfl

/-- Stamping account label and search blob never touches the timestamp. -/
theorem stampSummary_whenTs (ta bp : String) (d2a : List (String × String)) (im : MailSummary) :
    (stampSummary ta bp d2a im).whenTs = im.whenTs := by
  unfold stampSummary
  dsimp only
  split <;> split <;> first | rfl | (split <;> rfl) | (split <;> (first | rfl | (split <;> rfl)))

/-- The aggregation-side date filter is inert on zero-timestamp
summaries. -/
theorem filterMsgs_zero_dates :
    ∀ (ta ae bp : String) (d2a : List (String × String)) (since till : Nat)
      (matchF : String → Bool) (msgs : List MailSummary),
      (∀ m ∈ msgs, m.whenTs = 0) →
      filterMsgs ta ae bp d2a since till matchF msgs = filterMsgs ta ae bp d2a 0 0 matchF msgs := by
  intro ta ae bp d2a since till matchF msgs h
  induction msgs with
  | nil => rfl
  | cons im rest ih =>
      have hz : im.whenTs = 0 := h im (by simp)
      have ih2 := ih (fun m hm => h m (by simp [hm]))
      have hW : (stampSummary ta bp d2a im).whenTs = 0 := by
        rw [stampSummary_whenTs]; exact hz
      have hcs : ¬(since ≠ 0 ∧ (stampSummary ta bp d2a im).whenTs ≠ 0 ∧
          (stampSummary ta bp d2a im).whenTs < since) := by simp [hW]
      have hct : ¬(till ≠ 0 ∧ (stampSummary ta bp d2a im).whenTs ≠ 0 ∧
          (stampSummary ta bp d2a im).whenTs > till) := by simp [hW]
      have hc0s : ¬((0 : Nat) ≠ 0 ∧ (stampSummary ta bp d2a im).whenTs ≠ 0 ∧
          (stampSummary ta bp d2a im).whenTs < 0) := by simp
      have hc0t : ¬((0 : Nat) ≠ 0 ∧ (stampSummary ta bp d2a im).whenTs ≠ 0 ∧
          (stampSummary ta bp d2a im).whenTs > 0) := by simp
      rw [filterMsgs_cons, filterMsgs_cons, if_neg hcs, if_neg hct, if_neg hc0s, if_neg hc0t, ih2]

/-- The live-scan date filter is inert on zero-timestamp summaries. -/
theorem scanLoop_zero_dates :
    ∀ (bn : String) (f : String → Bool) (l s t c : Nat) (al : String) (tc : Nat)
      (items : List MboxItem) (seen : Nat) (hits : List MailSummary),
      (∀ sm st, MboxItem.msg sm st ∈ items → sm.whenTs = 0) →
      scanLoop bn f l s t c al tc items seen hits = scanLoop bn f l 0 0 c al tc items seen hits := by
  intro bn f l s t c al tc items
  induction items with
  | nil => intro seen hits _; rfl
  | cons item rest ih =>
      intro seen hits h
      have hrest : ∀ sm st, MboxItem.msg sm st ∈ rest → sm.whenTs = 0 :=
        fun sm st hm => h sm st (by simp [hm])
      cases item with
      | readError =>
          simp only [scanLoop]
          exact ih seen hits hrest
      | parseFail =>
          simp only [scanLoop]
          by_cases hbrk : c > 0 ∧ seen + 1 > c ∧ tc = 0
          · rw [if_pos hbrk, if_pos hbrk]
          · rw [if_neg hbrk, if_neg hbrk]
            exact ih (seen + 1) hits hrest
      | msg sm st =>
          have hz : sm.whenTs = 0 := h sm st (by simp)
          simp only [scanLoop]
          by_cases hbrk : c > 0 ∧ seen + 1 > c ∧ tc = 0
          · rw [if_pos hbrk, if_pos hbrk]
          · rw [if_neg hbrk, if_neg hbrk,
                if_neg (show ¬(s ≠ 0 ∧ sm.whenTs ≠ 0 ∧ sm.whenTs < s) by simp [hz]),
                if_neg (show ¬(t ≠ 0 ∧ sm.whenTs ≠ 0 ∧ sm.whenTs > t) by simp [hz]),
                if_neg (show ¬((0 : Nat) ≠ 0 ∧ sm.whenTs ≠ 0 ∧ sm.whenTs < 0) by simp),
                if_neg (show ¬((0 : Nat) ≠ 0 ∧ sm.whenTs ≠ 0 ∧ sm.whenTs > 0) by simp)]
            by_cases hm : f st
            · rw [if_pos hm, if_pos hm]
              exact ih (seen + 1) _ hrest
            · rw [if_neg hm, if_neg hm]
              exact ih (seen + 1) hits hrest

/-- C10: a summary with an unparsed (zero) timestamp is never excluded
by a since/till bound: both the cached-result filter of `App.search`
and the live folder scan behave on all-zero-timestamp inputs exactly as
with no date bounds at all. -/
theorem zero_date_passes_filters :
    (∀ (ta ae bp : String) (d2a : List (String × String)) (since till : Nat)
        (matchF : String → Bool) (msgs : List MailSummary),
        (∀ m ∈ msgs, m.whenTs = 0) →
        filterMsgs ta ae bp d2a since till matchF msgs =
          filterMsgs ta ae bp d2a 0 0 matchF msgs) ∧
    (∀ (bn : String) (matchF : String → Bool) (l since till c : Nat) (al : String) (tc : Nat)
        (items : List MboxItem),
        (∀ sm st, MboxItem.msg sm st ∈ items → sm.whenTs = 0) →
        searchMailbox bn matchF l since till c al tc items =
          searchMailbox bn matchF l 0 0 c al tc items) := by
  constructor
  · exact filterMsgs_zero_dates
  · intro bn matchF l since till c al tc items h
    unfold searchMailbox
    exact scanLoop_zero_dates bn matchF l since till c al tc items 0 [] h

/-- C10 witness: both conjuncts applied to a concrete zero-timestamp
summary under the bounds (5, 9). -/
theorem zero_date_passes_filters_witness :
    filterMsgs "" "" "" [] 5 9 (makeMatcher "hello" false) [exZeroSum] =
      filterMsgs "" "" "" [] 0 0 (makeMatcher "hello" false) [exZeroSum] ∧
    searchMailbox "Inbox" (makeMatcher "hello" false) 0 5 9 0 "" 0 [.msg exZeroSum "hello"] =
      searchMailbox "Inbox" (makeMatcher "hello" false) 0 0 0 0 "" 0 [.msg exZeroSum "hello"] :=
  ⟨zero_date_passes_filters.1 "" "" "" [] 5 9 (makeMatcher "hello" false) [exZeroSum]
      (by intro m hm; simp at hm; subst hm; rfl),
   zero_date_passes_filters.2 "Inbox" (makeMatcher "hello" false) 0 5 9 0 "" 0
      [.msg exZeroSum "hello"]
      (by intro sm st hm; simp at hm; rw [hm.1]; rfl)⟩

/-- C1 counterexample: the folder of `exCtx1` has a cached entry whose
fingerprint (5, 100) equals the file's current fingerprint, marked
complete, with no unparsed dates — yet the query `zzz` (zero cached
matches) re-invokes the scan, so the staleness conditions alone do not
prevent a re-read. -/
theorem cache_reuse_counterexample :
    exAccFresh.folders.lookup exCtx1.path =
      some { modTime := 5, size := 100, messages := [exMsgA], savedAt := 0, complete := true } ∧
    exCtx1.stat = some (5, 100) ∧
    hasMissingDates [exMsgA] = false ∧
    (searchStep false "" [] (makeMatcher "zzz" false) 0 0 25 0 0 0 exAccFresh exCtx1).scanned =
      ["/m/Inbox"] ∧
    exAccFresh.scanned = [] :=
  ⟨by decide, by decide, by decide, by decide, by decide⟩

/-- C1 amended: a folder with a fingerprint-fresh, complete,
no-missing-dates cache entry is not re-scanned provided the cached
entry also yields at least one match and, when a positive limit is set,
at least `limit` matches; and whenever either fingerprint component
differs from the stored one the folder is re-scanned. -/
theorem cache_reuse_amended :
    (∀ (accountEmail : String) (dirToAccount : List (String × String))
        (matchF : String → Bool) (since till limit maxMessages tailCount savedAtNow : Nat)
        (acc : SearchAcc) (ctx : FolderCtx) (mt sz : Int) (e : FolderIndex),
        ctx.stat = some (mt, sz) →
        acc.folders.lookup ctx.path = some e →
        e.modTime = mt → e.size = sz → e.complete = true →
        hasMissingDates e.messages = false →
        filterMsgs (if accountEmail = "" then accountForPath ctx.path dirToAccount else accountEmail)
            accountEmail ctx.path dirToAccount since till matchF e.messages ≠ [] →
        (limit = 0 ∨ limit ≤ (filterMsgs
            (if accountEmail = "" then accountForPath ctx.path dirToAccount else accountEmail)
            accountEmail ctx.path dirToAccount since till matchF e.messages).length) →
        (searchStep false accountEmail dirToAccount matchF since till limit maxMessages tailCount
            savedAtNow acc ctx).scanned = acc.scanned) ∧
    (∀ (accountEmail : String) (dirToAccount : List (String × String))
        (matchF : String → Bool) (since till limit maxMessages tailCount savedAtNow : Nat)
        (acc : SearchAcc) (ctx : FolderCtx) (mt sz : Int) (e : FolderIndex),
        ctx.stat = some (mt, sz) →
        acc.folders.lookup ctx.path = some e →
        (e.modTime ≠ mt ∨ e.size ≠ sz) →
        (searchStep false accountEmail dirToAccount matchF since till limit maxMessages tailCount
            savedAtNow acc ctx).scanned = acc.scanned ++ [ctx.path]) := by
  constructor
  · intro accountEmail dirToAccount matchF since till limit maxMessages tailCount savedAtNow
      acc ctx mt sz e hstat hlook hmod hsize hcomp hmiss hne hlim
    have hlen : ¬ ((filterMsgs (if accountEmail = "" then accountForPath ctx.path dirToAccount
        else accountEmail) accountEmail ctx.path dirToAccount since till matchF e.messages).length = 0) := by
      intro h0
      exact hne (List.length_eq_zero.mp h0)
    have hlim2 : ¬ (limit > 0 ∧ (filterMsgs (if accountEmail = "" then accountForPath ctx.path
        dirToAccount else accountEmail) accountEmail ctx.path dirToAccount since till matchF
        e.messages).length < limit) := by
      rcases hlim with h | h
      · simp [h]
      · intro hcon
        omega
    simp only [searchStep, hstat, hlook]
    simp [hmod, hsize, hcomp, hmiss, hlen, hlim2]
  · intro accountEmail dirToAccount matchF since till limit maxMessages tailCount savedAtNow
      acc ctx mt sz e hstat hlook hfp
    have hcond : ¬ (e.modTime = mt ∧ e.size = sz ∧ e.complete = true ∧
        hasMissingDates e.messages = false) := by
      rcases hfp with h | h
      · intro hc; exact h hc.1
      · intro hc; exact h hc.2.1
    simp only [searchStep, hstat, hlook]
    simp [hcond]

/-- C1 witness: the amended theorem applied to a matching query over a
fresh cache entry (no scan) and to a stale fingerprint (scan). -/
theorem cache_reuse_amended_witness :
    (searchStep false "" [] (makeMatcher "hello" false) 0 0 0 0 0 0 exAccFresh exCtx1).scanned =
      exAccFresh.scanned ∧
    (searchStep false "" [] (makeMatcher "hello" false) 0 0 0 0 0 0 exAccStale exCtx1).scanned =
      exAccStale.scanned ++ [exCtx1.path] :=
  ⟨cache_reuse_amended.1 "" [] (makeMatcher "hello" false) 0 0 0 0 0 0 exAccFresh exCtx1 5 100
      ⟨5, 100, [exMsgA], 0, true⟩ (by decide) (by decide) rfl rfl rfl (by decide) (by decide)
      (Or.inl rfl),
   cache_reuse_amended.2 "" [] (makeMatcher "hello" false) 0 0 0 0 0 0 exAccStale exCtx1 5 100
      ⟨1, 50, [exMsgA], 0, true⟩ (by decide) (by decide) (Or.inl (by decide))⟩

/-- C9 counterexample: the folder of `exCtx1` is re-scanned (its stale
entry is replaced wholesale, `changed` is set), yet the merged hit list
is empty, so `App.search` returns at `No matches` before `saveIndex`
and the cache file is written zero times, not once. -/
theorem cache_save_counterexample :
    (searchRun false "" [] (makeMatcher "zzz" false) 0 0 25 0 0 0 exCacheStale [exCtx1]).acc.changed = true ∧
    (searchRun false "" [] (makeMatcher "zzz" false) 0 0 25 0 0 0 exCacheStale [exCtx1]).acc.scanned = ["/m/Inbox"] ∧
    (searchRun false "" [] (makeMatcher "zzz" false) 0 0 25 0 0 0 exCacheStale [exCtx1]).saves = 0 :=
  ⟨by decide, by decide, by decide⟩

/-- C9 amended: the cache file is written at most once per search
invocation; it is written exactly once when the index is in use, some
folder re-scan replaced its entry (`changed`), and the merged hit list
is non-empty — with no hits the function returns early without
saving. -/
theorem cache_save_amended :
    ∀ (noIndex : Bool) (accountEmail : String) (dirToAccount : List (String × String))
      (matchF : String → Bool) (since till limit maxMessages tailCount savedAtNow : Nat)
      (cache0 : List (String × FolderIndex)) (ctxs : List FolderCtx),
      (searchRun noIndex accountEmail dirToAccount matchF since till limit maxMessages tailCount
          savedAtNow cache0 ctxs).saves ≤ 1 ∧
      (noIndex = false →
        (searchRun noIndex accountEmail dirToAccount matchF since till limit maxMessages tailCount
            savedAtNow cache0 ctxs).acc.changed = true →
        (searchRun noIndex accountEmail dirToAccount matchF since till limit maxMessages tailCount
            savedAtNow cache0 ctxs).acc.hits ≠ [] →
        (searchRun noIndex accountEmail dirToAccount matchF since till limit maxMessages tailCount
            savedAtNow cache0 ctxs).saves = 1) := by
  intro noIndex accountEmail dirToAccount matchF since till limit maxMessages tailCount
    savedAtNow cache0 ctxs
  unfold searchRun
  dsimp only
  split
  · rename_i hemp
    constructor
    · simp
    · intro _ _ hne
      exact absurd (List.isEmpty_iff.mp hemp) hne
  · constructor
    · dsimp only
      split <;> simp
    · intro hni hch _
      dsimp only at hch ⊢
      rw [if_pos ⟨by simp [hni], hch⟩]

/-- C9 witness: a search that replaces a stale entry and produces a hit
saves the cache file exactly once. -/
theorem cache_save_amended_witness :
    (searchRun false "" [] (makeMatcher "hello" false) 0 0 0 0 0 0 exCacheStale [exCtx2]).saves = 1 :=
  (cache_save_amended false "" [] (makeMatcher "hello" false) 0 0 0 0 0 0 exCacheStale [exCtx2]).2
    rfl (by decide) (by decide)

/-- Key membership matches the Boolean conflict test of `upsertRow`. -/
theorem any_key_mem (db : List PgRow) (κ : String × String) :
    (db.any (fun x => keyOf x = κ) = true) ↔ κ ∈ db.map keyOf := by
  simp only [List.any_eq_true, List.mem_map, decide_eq_true_eq]

/-- Absent key means an empty lookup. -/
theorem lookup_eq_none_iff (db : List PgRow) (κ : String × String) :
    dbLookup db κ = none ↔ κ ∉ db.map keyOf := by
  simp only [dbLookup, List.find?_eq_none, List.mem_map, decide_eq_true_eq, not_exists]
  tauto

/-- Lookup through the conflict-update map of `upsertRow`. -/
theorem lookup_map_repl (r : PgRow) :
    ∀ (db : List PgRow) (k : String × String),
      dbLookup (db.map (fun x => if keyOf x = keyOf r then r else x)) k =
        if k = keyOf r then (if db.any (fun x => keyOf x = keyOf r) then some r else none)
        else dbLookup db k := by
  intro db
  induction db with
  | nil =>
      intro k
      by_cases hk : k = keyOf r <;> simp [dbLookup, hk]
  | cons x xs ih =>
      intro k
      simp only [List.map_cons, List.any_cons]
      by_cases hx : keyOf x = keyOf r
      · rw [if_pos hx]
        by_cases hk : k = keyOf r
        · subst hk
          rw [show dbLookup (r :: List.map (fun x => if keyOf x = keyOf r then r else x) xs)
              (keyOf r) = some r from List.find?_cons_of_pos _ (by simp)]
          simp [hx]
        · rw [show dbLookup (r :: List.map (fun x => if keyOf x = keyOf r then r else x) xs) k =
              dbLookup (List.map (fun x => if keyOf x = keyOf r then r else x) xs) k from
            List.find?_cons_of_neg _ (by simp; exact fun hh => hk hh.symm)]
          rw [ih k, if_neg hk, if_neg hk]
          rw [show dbLookup (x :: xs) k = dbLookup xs k from
            List.find?_cons_of_neg _ (by simp [hx]; exact fun hh => hk hh.symm)]
      · rw [if_neg hx]
        by_cases hxeq : keyOf x = k
        · have hk : ¬ k = keyOf r := by rw [← hxeq]; exact hx
          rw [if_neg hk]
          rw [show dbLookup (x :: List.map (fun x => if keyOf x = keyOf r then r else x) xs) k =
              some x from List.find?_cons_of_pos _ (by simp [hxeq])]
          rw [show dbLookup (x :: xs) k = some x from List.find?_cons_of_pos _ (by simp [hxeq])]
        · rw [show dbLookup (x :: List.map (fun x => if keyOf x = keyOf r then r else x) xs) k =
                dbLookup (List.map (fun x => if keyOf x = keyOf r then r else x) xs) k from
              List.find?_cons_of_neg _ (by simp [hxeq])]
          rw [ih k]
          by_cases hk : k = keyOf r
          · rw [if_pos hk, if_pos hk]
            simp [hx]
          · rw [if_neg hk, if_neg hk]
            rw [show dbLookup (x :: xs) k = dbLookup xs k from
              List.find?_cons_of_neg _ (by simp [hxeq])]

/-- Lookup after a single upsert: the upserted key now maps to the new
row, every other key is untouched. -/
theorem lookup_upsertRow (db : List PgRow) (r : PgRow) (k : String × String) :
    dbLookup (upsertRow db r) k = if k = keyOf r then some r else dbLookup db k := by
  unfold upsertRow
  by_cases hany : db.any (fun x => keyOf x = keyOf r) = true
  · rw [if_pos hany, lookup_map_repl]
    by_cases hk : k = keyOf r
    · rw [if_pos hk, if_pos hk, if_pos hany]
    · rw [if_neg hk, if_neg hk]
  · rw [if_neg hany]
    by_cases hk : k = keyOf r
    · subst hk
      have hnone : dbLookup db (keyOf r) = none := by
        rw [lookup_eq_none_iff]
        intro hmem
        exact hany ((any_key_mem db (keyOf r)).mpr hmem)
      rw [if_pos rfl]
      simp only [dbLookup] at hnone ⊢
      rw [List.find?_append, hnone, Option.none_or]
      simp [List.find?]
    · rw [if_neg hk]
      simp only [dbLookup]
      rw [List.find?_append]
      cases hdb : List.find? (fun row => decide (keyOf row = k)) db with
      | some v => rfl
      | none =>
          rw [Option.none_or]
          simp [List.find?, show ¬ keyOf r = k from fun hh => hk hh.symm]

/-- Keys after a single upsert: unchanged on conflict, appended
otherwise. -/
theorem keys_upsertRow (db : List PgRow) (r : PgRow) :
    (upsertRow db r).map keyOf =
      if keyOf r ∈ db.map keyOf then db.map keyOf else db.map keyOf ++ [keyOf r] := by
  unfold upsertRow
  by_cases hany : db.any (fun x => keyOf x = keyOf r) = true
  · rw [if_pos hany, if_pos ((any_key_mem db (keyOf r)).mp hany)]
    rw [List.map_map]
    apply List.map_congr_left
    intro x _
    by_cases hx : keyOf x = keyOf r
    · simp [hx]
    · simp [hx]
  · have hmem : keyOf r ∉ db.map keyOf := fun hm => hany ((any_key_mem db (keyOf r)).mpr hm)
    rw [if_neg hany, if_neg hmem, List.map_append]
    rfl

/-- A single upsert preserves distinctness of primary keys. -/
theorem nodup_upsertRow (db : List PgRow) (r : PgRow)
    (h : (db.map keyOf).Nodup) : ((upsertRow db r).map keyOf).Nodup := by
  rw [keys_upsertRow]
  by_cases hmem : keyOf r ∈ db.map keyOf
  · rw [if_pos hmem]; exact h
  · rw [if_neg hmem]
    refine List.nodup_append.mpr ⟨h, List.nodup_singleton _, ?_⟩
    intro a ha hb
    simp at hb
    subst hb
    exact hmem ha

/-- A batch upsert preserves distinctness of primary keys. -/
theorem nodup_pgUpsert (msgs : List MailSummary) :
    ∀ db : List PgRow, (db.map keyOf).Nodup → ((pgUpsert db msgs).map keyOf).Nodup := by
  induction msgs with
  | nil => intro db h; exact h
  | cons m rest ih =>
      intro db h
      exact ih (upsertRow db (rowOf m)) (nodup_upsertRow db (rowOf m) h)

/-- Lookup after a batch upsert: the last write for the key, else the
original row. -/
theorem lookup_pgUpsert (msgs : List MailSummary) :
    ∀ (db : List PgRow) (k : String × String),
      dbLookup (pgUpsert db msgs) k =
        (match lastWrite msgs k with
         | some r => some r
         | none => dbLookup db k) := by
  induction msgs with
  | nil => intro db k; simp [pgUpsert, lastWrite]
  | cons m rest ih =>
      intro db k
      have hstep : pgUpsert db (m :: rest) = pgUpsert (upsertRow db (rowOf m)) rest := rfl
      rw [hstep, ih (upsertRow db (rowOf m)) k, lookup_upsertRow]
      simp only [lastWrite]
      cases hlw : lastWrite rest k with
      | some r => rfl
      | none =>
          by_cases hk : keyOf (rowOf m) = k
          · rw [if_pos hk, if_pos (hk.symm)]
          · rw [if_neg hk, if_neg (fun hh => hk hh.symm)]

/-- Every message of the batch has a last write. -/
theorem lastWrite_isSome_of_mem (msgs : List MailSummary) (m : MailSummary)
    (hm : m ∈ msgs) : (lastWrite msgs (keyOf (rowOf m))).isSome = true := by
  induction msgs with
  | nil => simp at hm
  | cons a rest ih =>
      simp only [lastWrite]
      cases hlw : lastWrite rest (keyOf (rowOf m)) with
      | some r => rfl
      | none =>
          rcases List.mem_cons.mp hm with h | h
          · subst h
            rw [if_pos rfl]
            rfl
          · have := ih h
            rw [hlw] at this
            simp at this

/-- Keys are unchanged by a batch upsert whose keys are all already
present. -/
theorem keys_pgUpsert_of_present (msgs : List MailSummary) :
    ∀ db : List PgRow, (∀ m ∈ msgs, keyOf (rowOf m) ∈ db.map keyOf) →
      (pgUpsert db msgs).map keyOf = db.map keyOf := by
  induction msgs with
  | nil => intro db _; rfl
  | cons m rest ih =>
      intro db h
      have hm : keyOf (rowOf m) ∈ db.map keyOf := h m (by simp)
      have hkeys : (upsertRow db (rowOf m)).map keyOf = db.map keyOf := by
        rw [keys_upsertRow, if_pos hm]
      have hstep : pgUpsert db (m :: rest) = pgUpsert (upsertRow db (rowOf m)) rest := rfl
      rw [hstep, ih (upsertRow db (rowOf m)) (by intro x hx; rw [hkeys]; exact h x (by simp [hx])),
        hkeys]

/-- Two stores with the same distinct key sequence and the same lookup
at every key are equal. -/
theorem dbext (db₁ : List PgRow) :
    ∀ db₂ : List PgRow, db₁.map keyOf = db₂.map keyOf → (db₁.map keyOf).Nodup →
      (∀ k, dbLookup db₁ k = dbLookup db₂ k) → db₁ = db₂ := by
  induction db₁ with
  | nil =>
      intro db₂ hkeys _ _
      cases db₂ with
      | nil => rfl
      | cons y ys => simp at hkeys
  | cons x xs ih =>
      intro db₂ hkeys hnd hlook
      cases db₂ with
      | nil => simp at hkeys
      | cons y ys =>
          simp only [List.map_cons, List.cons.injEq] at hkeys
          have hk0 : keyOf x = keyOf y := hkeys.1
          have hx : dbLookup (x :: xs) (keyOf x) = some x :=
            List.find?_cons_of_pos _ (by simp)
          have hy : dbLookup (y :: ys) (keyOf x) = some y :=
            List.find?_cons_of_pos _ (by simp [hk0.symm])
          have hxy : x = y := by
            have := hlook (keyOf x)
            rw [hx, hy] at this
            exact Option.some.inj this
          subst hxy
          have hndtl : (xs.map keyOf).Nodup := (List.nodup_cons.mp hnd).2
          have hnotin : keyOf x ∉ xs.map keyOf := (List.nodup_cons.mp hnd).1
          have htl : ∀ k, dbLookup xs k = dbLookup ys k := by
            intro k
            by_cases hk : keyOf x = k
            · subst hk
              have h1 : dbLookup xs (keyOf x) = none :=
                (lookup_eq_none_iff xs (keyOf x)).mpr hnotin
              have h2 : dbLookup ys (keyOf x) = none := by
                rw [lookup_eq_none_iff]
                rw [← hkeys.2]
                exact hnotin
              rw [h1, h2]
            · have h1 : dbLookup (x :: xs) k = dbLookup xs k :=
                List.find?_cons_of_neg _ (by simp [hk])
              have h2 : dbLookup (x :: ys) k = dbLookup ys k :=
                List.find?_cons_of_neg _ (by simp [hk])
              have := hlook k
              rw [h1, h2] at this
              exact this
          rw [ih ys hkeys.2 hndtl htl]

/-- C2: under the primary-key invariant (distinct (profile, message_id)
keys), upserting the same batch twice equals upserting it once — every
row keeps its content and no duplicate row is created — and the key
invariant is preserved. -/
theorem upsert_idempotent :
    ∀ (db : List PgRow) (msgs : List MailSummary),
      (db.map keyOf).Nodup →
      pgUpsert (pgUpsert db msgs) msgs = pgUpsert db msgs ∧
      ((pgUpsert db msgs).map keyOf).Nodup := by
  intro db msgs hnd
  have hnd1 : ((pgUpsert db msgs).map keyOf).Nodup := nodup_pgUpsert msgs db hnd
  refine ⟨?_, hnd1⟩
  have hpres : ∀ m ∈ msgs, keyOf (rowOf m) ∈ (pgUpsert db msgs).map keyOf := by
    intro m hm
    have hsome := lastWrite_isSome_of_mem msgs m hm
    have hl := lookup_pgUpsert msgs db (keyOf (rowOf m))
    cases hlw : lastWrite msgs (keyOf (rowOf m)) with
    | none =>
        rw [hlw] at hsome
        simp at hsome
    | some r =>
        rw [hlw] at hl
        by_contra hnot
        have hn := (lookup_eq_none_iff _ _).mpr hnot
        rw [hn] at hl
        simp at hl
  have hkeys : (pgUpsert (pgUpsert db msgs) msgs).map keyOf = (pgUpsert db msgs).map keyOf :=
    keys_pgUpsert_of_present msgs (pgUpsert db msgs) hpres
  have hlooks : ∀ k, dbLookup (pgUpsert (pgUpsert db msgs) msgs) k =
      dbLookup (pgUpsert db msgs) k := by
    intro k
    rw [lookup_pgUpsert msgs (pgUpsert db msgs) k, lookup_pgUpsert msgs db k]
    cases hlw : lastWrite msgs k with
    | some r => rfl
    | none => rfl
  exact dbext _ _ hkeys (by rw [hkeys]; exact hnd1) hlooks

/-- C2 witness: the idempotence theorem applied to one concrete summary
over the empty store. -/
theorem upsert_idempotent_witness :
    pgUpsert (pgUpsert [] [exMsgA]) [exMsgA] = pgUpsert [] [exMsgA] :=
  (upsert_idempotent [] [exMsgA] (by decide)).1

/-- The unbounded, window-free scan is an accumulator homomorphism. -/
theorem scanLoop_free_append (bn : String) (f : String → Bool) (s t : Nat) (al : String) :
    ∀ (items : List MboxItem) (seen : Nat) (hits : List MailSummary),
      scanLoop bn f 0 s t 0 al 0 items seen hits =
        hits ++ scanLoop bn f 0 s t 0 al 0 items seen [] := by
  intro items
  induction items with
  | nil => intro seen hits; simp [scanLoop]
  | cons item rest ih =>
      intro seen hits
      cases item with
      | readError =>
          simp only [scanLoop]
          exact ih seen hits
      | parseFail =>
          simp only [scanLoop, lt_self_iff_false, false_and, if_false]
          exact ih (seen + 1) hits
      | msg sm st =>
          simp only [scanLoop, lt_self_iff_false, false_and, if_false]
          by_cases h1 : s ≠ 0 ∧ sm.whenTs ≠ 0 ∧ sm.whenTs < s
          · rw [if_pos h1, if_pos h1]
            exact ih (seen + 1) hits
          · rw [if_neg h1, if_neg h1]
            by_cases h2 : t ≠ 0 ∧ sm.whenTs ≠ 0 ∧ sm.whenTs > t
            · rw [if_pos h2, if_pos h2]
              exact ih (seen + 1) hits
            · rw [if_neg h2, if_neg h2]
              by_cases hm : f st
              · rw [if_pos hm, if_pos hm]
                simp only [lt_self_iff_false, false_and, and_false, if_false, List.nil_append]
                conv_lhs => rw [ih (seen + 1)]
                conv_rhs => rw [ih (seen + 1)]
                rw [List.append_assoc]
              · rw [if_neg hm, if_neg hm]
                exact ih (seen + 1) hits

/-- With a positive tail window the cap never stops the scan. -/
theorem scanLoop_tail_cap (bn : String) (f : String → Bool) (l s t : Nat) (al : String)
    (tc : Nat) (htc : 0 < tc) (c : Nat) :
    ∀ (items : List MboxItem) (seen : Nat) (hits : List MailSummary),
      scanLoop bn f l s t c al tc items seen hits =
        scanLoop bn f l s t 0 al tc items seen hits := by
  intro items
  have htc0 : ¬ tc = 0 := by omega
  induction items with
  | nil => intro seen hits; rfl
  | cons item rest ih =>
      intro seen hits
      cases item with
      | readError =>
          simp only [scanLoop]
          exact ih seen hits
      | parseFail =>
          simp only [scanLoop]
          rw [if_neg (show ¬(c > 0 ∧ seen + 1 > c ∧ tc = 0) from fun hh => htc0 hh.2.2),
              if_neg (show ¬((0 : Nat) > 0 ∧ seen + 1 > 0 ∧ tc = 0) from fun hh => htc0 hh.2.2)]
          exact ih (seen + 1) hits
      | msg sm st =>
          simp only [scanLoop]
          rw [if_neg (show ¬(c > 0 ∧ seen + 1 > c ∧ tc = 0) from fun hh => htc0 hh.2.2),
              if_neg (show ¬((0 : Nat) > 0 ∧ seen + 1 > 0 ∧ tc = 0) from fun hh => htc0 hh.2.2)]
          by_cases h1 : s ≠ 0 ∧ sm.whenTs ≠ 0 ∧ sm.whenTs < s
          · rw [if_pos h1, if_pos h1]
            exact ih (seen + 1) hits
          · rw [if_neg h1, if_neg h1]
            by_cases h2 : t ≠ 0 ∧ sm.whenTs ≠ 0 ∧ sm.whenTs > t
            · rw [if_pos h2, if_pos h2]
              exact ih (seen + 1) hits
            · rw [if_neg h2, if_neg h2]
              by_cases hm : f st
              · rw [if_pos hm, if_pos hm]
                exact ih (seen + 1) _
              · rw [if_neg hm, if_neg hm]
                exact ih (seen + 1) hits

/-- With no tail window, a capped scan only sees the prefix holding the
first `cap` countable items. -/
theorem scanLoop_cap_prefix (bn : String) (f : String → Bool) (l s t : Nat) (al : String)
    (c : Nat) (hc : 0 < c) :
    ∀ (items : List MboxItem) (seen : Nat) (hits : List MailSummary),
      scanLoop bn f l s t c al 0 items seen hits =
        scanLoop bn f l s t 0 al 0 (seenTake (c - seen) items) seen hits := by
  intro items
  induction items with
  | nil => intro seen hits; simp [seenTake, scanLoop]
  | cons item rest ih =>
      intro seen hits
      cases item with
      | readError =>
          simp only [seenTake, scanLoop]
          exact ih seen hits
      | parseFail =>
          by_cases hb : seen + 1 > c
          · have hcs : c - seen = 0 := by omega
            rw [hcs]
            simp only [seenTake, scanLoop]
            rw [if_pos (show c > 0 ∧ seen + 1 > c ∧ True from ⟨hc, hb, trivial⟩)]
          · obtain ⟨k, hk⟩ : ∃ k, c - seen = k + 1 := ⟨c - seen - 1, by omega⟩
            rw [hk]
            simp only [seenTake, scanLoop]
            rw [if_neg (show ¬(c > 0 ∧ seen + 1 > c ∧ True) from fun hh => hb hh.2.1),
                if_neg (show ¬((0 : Nat) > 0 ∧ seen + 1 > 0 ∧ True) from by simp)]
            have hk2 : c - (seen + 1) = k := by omega
            rw [ih (seen + 1) hits, hk2]
      | msg sm st =>
          by_cases hb : seen + 1 > c
          · have hcs : c - seen = 0 := by omega
            rw [hcs]
            simp only [seenTake, scanLoop]
            rw [if_pos (show c > 0 ∧ seen + 1 > c ∧ True from ⟨hc, hb, trivial⟩)]
          · obtain ⟨k, hk⟩ : ∃ k, c - seen = k + 1 := ⟨c - seen - 1, by omega⟩
            rw [hk]
            simp only [seenTake, scanLoop]
            rw [if_neg (show ¬(c > 0 ∧ seen + 1 > c ∧ True) from fun hh => hb hh.2.1),
                if_neg (show ¬((0 : Nat) > 0 ∧ seen + 1 > 0 ∧ True) from by simp)]
            have hk2 : c - (seen + 1) = k := by omega
            by_cases h1 : s ≠ 0 ∧ sm.whenTs ≠ 0 ∧ sm.whenTs < s
            · rw [if_pos h1, if_pos h1, ih (seen + 1) hits, hk2]
            · rw [if_neg h1, if_neg h1]
              by_cases h2 : t ≠ 0 ∧ sm.whenTs ≠ 0 ∧ sm.whenTs > t
              · rw [if_pos h2, if_pos h2, ih (seen + 1) hits, hk2]
              · rw [if_neg h2, if_neg h2]
                by_cases hm : f st
                · rw [if_pos hm, if_pos hm, ih (seen + 1), hk2]
                · rw [if_neg hm, if_neg hm, ih (seen + 1) hits, hk2]

/-- A list short enough is its own window. -/
theorem lastWindow_all {α : Type} (n : Nat) (l : List α) (h : l.length ≤ n) :
    lastWindow n l = l := by
  simp [lastWindow, Nat.sub_eq_zero_of_le h]

/-- Evicting the oldest element of a full window does not change the
final window once more elements follow. -/
theorem lastWindow_dropHead {α : Type} (n : Nat) (l A : List α) (h : l.length = n + 1) :
    lastWindow n (l.drop 1 ++ A) = lastWindow n (l ++ A) := by
  cases l with
  | nil => simp at h
  | cons x l2 =>
      have h2 : l2.length = n := by simpa using h
      simp only [List.drop_succ_cons, List.drop_zero, lastWindow, List.length_append,
        List.cons_append, List.length_cons, h2]
      have e1 : n + A.length - n = A.length := by omega
      have e2 : n + A.length + 1 - n = A.length + 1 := by omega
      rw [e1, e2, List.drop_succ_cons]

/-- One window push: append then evict the oldest when over-full; the
final window is unchanged compared to plain appending. -/
theorem lastWindow_push {α : Type} (n : Nat) (hits : List α) (x : α) (A : List α)
    (hlen : hits.length ≤ n) (hn : 0 < n) :
    lastWindow n ((if n > 0 ∧ (hits ++ [x]).length > n then (hits ++ [x]).drop 1
      else hits ++ [x]) ++ A) = lastWindow n ((hits ++ [x]) ++ A) := by
  by_cases hfull : hits.length = n
  · rw [if_pos ⟨hn, by simp [hfull]⟩]
    exact lastWindow_dropHead n (hits ++ [x]) A (by simp [hfull])
  · rw [if_neg (by simp only [List.length_append, List.length_cons, List.length_nil]; omega)]

/-- One window push keeps the accumulator within the window size. -/
theorem windowPush_length {α : Type} (n : Nat) (hits : List α) (x : α)
    (hlen : hits.length ≤ n) (hn : 0 < n) :
    (if n > 0 ∧ (hits ++ [x]).length > n then (hits ++ [x]).drop 1
      else hits ++ [x]).length ≤ n := by
  by_cases hfull : hits.length = n
  · rw [if_pos ⟨hn, by simp [hfull]⟩]
    simp [hfull]
  · rw [if_neg (by simp only [List.length_append, List.length_cons, List.length_nil]; omega)]
    simp only [List.length_append, List.length_cons, List.length_nil]
    omega

/-- With a positive tail window the scan keeps exactly the last `tc`
matched summaries. -/
theorem scanLoop_tail_window (bn : String) (f : String → Bool) (l s t : Nat) (al : String)
    (tc : Nat) (htc : 0 < tc) :
    ∀ (items : List MboxItem) (seen : Nat) (hits : List MailSummary), hits.length ≤ tc →
      scanLoop bn f l s t 0 al tc items seen hits =
        lastWindow tc (hits ++ scanLoop bn f 0 s t 0 al 0 items seen []) := by
  intro items
  have htc0 : ¬ tc = 0 := by omega
  induction items with
  | nil =>
      intro seen hits hlen
      simp only [scanLoop, List.append_nil]
      rw [lastWindow_all tc hits hlen]
  | cons item rest ih =>
      intro seen hits hlen
      cases item with
      | readError =>
          simp only [scanLoop]
          exact ih seen hits hlen
      | parseFail =>
          simp only [scanLoop, lt_self_iff_false, false_and, if_false]
          exact ih (seen + 1) hits hlen
      | msg sm st =>
          simp only [scanLoop, lt_self_iff_false, false_and, and_false, if_false,
            List.nil_append]
          by_cases h1 : s ≠ 0 ∧ sm.whenTs ≠ 0 ∧ sm.whenTs < s
          · rw [if_pos h1, if_pos h1]
            exact ih (seen + 1) hits hlen
          · rw [if_neg h1, if_neg h1]
            by_cases h2 : t ≠ 0 ∧ sm.whenTs ≠ 0 ∧ sm.whenTs > t
            · rw [if_pos h2, if_pos h2]
              exact ih (seen + 1) hits hlen
            · rw [if_neg h2, if_neg h2]
              by_cases hm : f st
              · rw [if_pos hm, if_pos hm]
                simp only [htc0, false_and, if_false]
                rw [scanLoop_free_append bn f s t al rest (seen + 1)]
                refine (ih (seen + 1) _ (windowPush_length tc hits _ hlen htc)).trans ?_
                rw [lastWindow_push tc hits _ _ hlen htc, List.append_assoc]
              · rw [if_neg hm, if_neg hm]
                exact ih (seen + 1) hits hlen

/-- C4: with a positive cap and no tail window, the scan output is that
of an uncapped scan of the prefix containing the first `cap` seen (not
matched) messages; with a positive tail window the cap never stops the
scan and the output is exactly the last `tail` matched summaries in
original order — in particular ten sequential messages with tail window
3 and a match-all predicate yield exactly the last three. -/
theorem scan_cap_tail_semantics :
    (∀ (bn : String) (f : String → Bool) (l s t : Nat) (al : String) (c : Nat)
        (items : List MboxItem), 0 < c →
        searchMailbox bn f l s t c al 0 items =
          searchMailbox bn f l s t 0 al 0 (seenTake c items)) ∧
    (∀ (bn : String) (f : String → Bool) (l s t : Nat) (al : String) (c tc : Nat)
        (items : List MboxItem), 0 < tc →
        searchMailbox bn f l s t c al tc items =
          lastWindow tc (searchMailbox bn f 0 s t 0 al 0 items)) ∧
    searchMailbox "Inbox" (fun _ => true) 0 0 0 0 "" 3 scanItems10 =
      [scanMsg 7, scanMsg 8, scanMsg 9] := by
  refine ⟨?_, ?_, by decide⟩
  · intro bn f l s t al c items hc
    unfold searchMailbox
    have h := scanLoop_cap_prefix bn f l s t al c hc items 0 []
    simpa using h
  · intro bn f l s t al c tc items htc
    unfold searchMailbox
    rw [scanLoop_tail_cap bn f l s t al tc htc c items 0 []]
    have h := scanLoop_tail_window bn f l s t al tc htc items 0 [] (by simp)
    simpa using h

/-- C4 witness: the cap-prefix and tail-window clauses applied to the
ten-message scenario with cap 5 and tail 3. -/
theorem scan_cap_tail_semantics_witness :
    searchMailbox "Inbox" (fun _ => true) 0 0 0 5 "" 0 scanItems10 =
      searchMailbox "Inbox" (fun _ => true) 0 0 0 0 "" 0 (seenTake 5 scanItems10) ∧
    searchMailbox "Inbox" (fun _ => true) 0 0 0 7 "" 3 scanItems10 =
      lastWindow 3 (searchMailbox "Inbox" (fun _ => true) 0 0 0 0 "" 0 scanItems10) :=
  ⟨scan_cap_tail_semantics.1 "Inbox" (fun _ => true) 0 0 0 "" 5 scanItems10 (by decide),
   scan_cap_tail_semantics.2.1 "Inbox" (fun _ => true) 0 0 0 "" 7 3 scanItems10 (by decide)⟩
